import Mathlib

/-!
Blob generator (`webapp/storage/generator.go`).

A shallow embedding of the `go generate` helper that packs the files of a
directory tree into a generated Go source file, together with the properties of
its byte encoder, its directory walk, its three templates and its driver
`generateBlob`.

Conventions of the embedding.

* A Go `string` is a `List Char` (`Str`); a Go `byte` is a `Fin 256`.
* Library routines the generator calls (`fmt.Sprintf`, `strings.TrimPrefix`,
  `path/filepath` on a Unix host, `text/template`) are embedded from their Go
  definitions; `go/format.Source` and the outcome of the system calls are inputs
  of the model (`Env`).
* Side effects are recorded as a list of `Event`s.
-/

namespace Generator

/-! ## Basic types and the constants of the generator -/

/-- Go `byte`. -/
abbrev Byte := Fin 256

/-- A Go `string` that is valid UTF-8, as the sequence of its characters (a Lean
`Char` is a Unicode scalar value). Strings that are not valid UTF-8, which a
file name on a Unix host can be, are outside of the model. -/
abbrev Str := List Char

/-- The double quote character. -/
def dquote : Char := Char.ofNat 34

/-- The backslash character. -/
def backslash : Char := Char.ofNat 92

/-- The character NUL. -/
def nul : Char := Char.ofNat 0

/-- The byte order mark U+FEFF. -/
def bom : Char := Char.ofNat 0xFEFF

def testCaseBlobFileName : Str := "testcases_blob.go".toList
def expectationBlobFileName : Str := "expectation_blob.go".toList
def stageBlobFileName : Str := "stage_blob.go".toList
def embedTestCaseFolder : Str := "../../default-e2e-test-data/testcases".toList
def embedExpectationFolder : Str := "../../default-e2e-test-data/expectations".toList
def embedStageFolder : Str := "../../default-e2e-test-data/stages".toList

/-! ## `fmt.Sprintf("%d,", int(v))` and `fmtByteSlice` -/

/-- The digit table of package `fmt` (`ldigits`). -/
def ldigits : Str := "0123456789abcdefx".toList

/-- The base-10 loop of `fmt.(*fmt).fmtInteger`: digits are produced from the
least significant one and stored right to left in the buffer. `fuel` bounds the
number of iterations (a `uint64` has at most 20 decimal digits). -/
def fmtIntegerLoop : Nat → Nat → Str → Str
  | 0, u, buf => ldigits.getD u '?' :: buf
  | fuel + 1, u, buf =>
    if u ≥ 10 then
      let next := u / 10
      fmtIntegerLoop fuel next (Char.ofNat (48 + u - next * 10) :: buf)
    else
      ldigits.getD u '?' :: buf

/-- The verb `%d` applied to a Go `int`, without flags: `fmtInteger` in base 10,
a minus sign in front of the digits of a negative value. -/
def fmtInteger (i : Int) : Str :=
  let negative := decide (i < 0)
  let u := if negative then (-i).toNat else i.toNat
  let buf := fmtIntegerLoop 20 u []
  if negative then '-' :: buf else buf

/-- The call `fmt.Sprintf("%d,", i)`. -/
def sprintfDComma (i : Int) : Str :=
  fmtInteger i ++ [',']

/-- `fmtByteSlice`: every byte is converted to `int`, printed with `"%d,"` and
appended to the string builder; the result is the builder's content. -/
def fmtByteSlice (s : List Byte) : Str :=
  s.foldl (fun builder v => builder ++ sprintfDComma ((v.val : Int))) []

/-! ### Decimal numerals and Go's element-list grammar (specification side) -/

/-- The value of a string of decimal digits. -/
def digitsValue (cs : Str) : Nat :=
  cs.foldl (fun a c => 10 * a + (c.toNat - 48)) 0

/-- `isDecimalOf cs n`: `cs` is the unsigned decimal numeral of `n`: it is not
empty, it consists of the digits `0`..`9` only (so it has no sign), it has no
leading zero unless it is the single digit `0`, and its value is `n`. -/
def isDecimalOf (cs : Str) (n : Nat) : Bool :=
  !cs.isEmpty && cs.all Char.isDigit && (cs.length == 1 || cs.head? != some '0')
    && digitsValue cs == n

/-- A Go decimal integer literal (`"0" | "1".."9" { digit }`) that is a constant
representable as a `byte`. A numeral with a leading zero is not a decimal
literal in Go (it is octal) and is rejected, as is a value above 255. -/
def decimalLit (cs : Str) : Option Byte :=
  if cs.isEmpty then none
  else if !cs.all Char.isDigit then none
  else if !(cs.length == 1 || cs.head? != some '0') then none
  else if h : digitsValue cs < 256 then some ⟨digitsValue cs, h⟩ else none

/-- The element list between the braces of a `[]byte` composite literal,
restricted to decimal literals: `[ Element { "," Element } [ "," ] ]`. The
second argument holds the characters of the literal being read. -/
def parseElements : Str → Str → Option (List Byte)
  | [], cur => if cur.isEmpty then some [] else (decimalLit cur).map (fun b => [b])
  | c :: cs, cur =>
    if c = ',' then
      match decimalLit cur with
      | none => none
      | some b => (parseElements cs []).map (fun bs => b :: bs)
    else if c.isDigit then parseElements cs (cur ++ [c])
    else none

/-- Parsing a text as the element list of a `[]byte` literal. -/
def parseByteLiteral (text : Str) : Option (List Byte) :=
  parseElements text []

/-! ## `strings` and `path/filepath` (Unix) -/

/-- `filepath.Separator` on a Unix host. -/
def Separator : Char := '/'

/-- `filepath.ToSlash`: the path itself when the separator is a slash, else the
path with every separator replaced by a slash. -/
def ToSlash (path : Str) : Str :=
  if Separator = '/' then path
  else path.map (fun c => if c = Separator then '/' else c)

/-- `strings.HasPrefix`. -/
def HasPrefix (s pre : Str) : Bool :=
  pre.isPrefixOf s

/-- `strings.TrimPrefix`: `s` without the leading `pre` when `s` starts with
it, `s` unchanged otherwise. -/
def TrimPrefix (s pre : Str) : Str :=
  if HasPrefix s pre then s.drop pre.length else s

/-- `strings.Contains`. -/
def Contains : Str → Str → Bool
  | [], sub => sub.isEmpty
  | c :: cs, sub => sub.isPrefixOf (c :: cs) || Contains cs sub

/-- `strings.Join`. -/
def joinWith (sep : Str) : List Str → Str
  | [] => []
  | [e] => e
  | e :: es => e ++ sep ++ joinWith sep es

/-- The elements of a path: the pieces between separators (empty pieces
included). -/
def splitSep : Str → List Str
  | [] => [[]]
  | c :: cs =>
    if c = Separator then [] :: splitSep cs
    else
      match splitSep cs with
      | [] => [[c]]
      | e :: es => (c :: e) :: es

/-- One element of the loop of `filepath.Clean`; `out` is the list of elements
kept so far, last one first. An empty element and `.` are dropped; `..` removes
the last kept element, unless there is none (then it is dropped in a rooted path
and kept otherwise) or the last kept element is itself a `..`; any other element
is kept. -/
def cleanStep (rooted : Bool) (out : List Str) (e : Str) : List Str :=
  if e = [] then out
  else if e = ['.'] then out
  else if e = ['.', '.'] then
    match out with
    | [] => if rooted then [] else [e]
    | top :: below => if top = ['.', '.'] then e :: out else below
  else e :: out

/-- The elements `filepath.Clean` keeps, last one first. -/
def cleanOut (path : Str) : List Str :=
  (splitSep path).foldl (cleanStep (path.head? = some Separator)) []

/-- `filepath.Clean` on Unix: the empty path becomes `.`; otherwise the kept
elements are joined by single separators, after a leading separator for a rooted
path, and an empty result is `.`. -/
def Clean (path : Str) : Str :=
  if path = [] then ['.']
  else
    let rooted : Bool := path.head? = some Separator
    let out := cleanOut path
    if rooted then Separator :: joinWith [Separator] out.reverse
    else if out = [] then ['.']
    else joinWith [Separator] out.reverse

/-- `filepath.Join` of two elements: the elements from the first non-empty one
on are joined by the separator and cleaned; the result is empty when both are
empty. -/
def Join (a b : Str) : Str :=
  if a ≠ [] then Clean (a ++ Separator :: b)
  else if b ≠ [] then Clean b
  else []

/-! ## The file system seen by the walk -/

/-- What `ioutil.ReadFile` gives for a file: its content, or the failure of the
underlying `open` or `read` (the operation and the cause). -/
inductive ReadOutcome
  | ok (content : List Byte)
  | fail (op : Str) (cause : Str)
  deriving DecidableEq, Repr

/-- The error value `*os.PathError`. -/
structure PathError where
  op : Str
  path : Str
  err : Str
  deriving DecidableEq, Repr

/-- The method `(*PathError).Error`. -/
def PathError.Error (e : PathError) : Str :=
  e.op ++ " ".toList ++ e.path ++ ": ".toList ++ e.err

mutual
/-- A directory tree: an entry that is not a directory (with the outcome of
reading it), a directory with its entries in the order of `readDirNames`, or a
directory that cannot be listed (`readDirNames` fails with `cause`), with the
entries it holds, which `filepath.Walk` does not get to see. Every entry below
the root can be `Lstat`ed. -/
inductive Node
  | file (r : ReadOutcome)
  | dir (es : Entries)
  | unlistable (cause : Str) (es : Entries)
/-- The named entries of a directory. -/
inductive Entries
  | nil
  | cons (name : Str) (n : Node) (rest : Entries)
end

/-- The part of `os.FileInfo` the generator looks at. -/
structure FileInfo where
  IsDir : Bool
  deriving DecidableEq, Repr

/-- The `FileSet`: Go's `map[string][]byte`, as the list of its entries. The
order of the list stands for the iteration order of the map, which Go leaves
unspecified. -/
abbrev FileSet := List (Str × List Byte)

/-- The map assignment `configs[k] = v`: the value of an existing key is
replaced, a new key gets a new entry. -/
def FileSet.set : FileSet → Str → List Byte → FileSet
  | [], k, v => [(k, v)]
  | (k', v') :: rest, k, v =>
    if k' = k then (k', v) :: rest else (k', v') :: FileSet.set rest k v

/-- The keys of the map. -/
def FileSet.keys (m : FileSet) : List Str :=
  m.map Prod.fst

/-- The map index expression `m[k]` (the zero value for an absent key). -/
def FileSet.index (m : FileSet) (k : Str) : List Byte :=
  (m.lookup k).getD []

/-- The observable steps of a run. `fatal` is `log.Fatal`: the message is
logged and the process exits with status 1. `panic` is a run-time panic. -/
inductive Event
  | stat (path : Str)
  | walk (root : Str)
  | println (msg : Str)
  | readFile (path : Str)
  | create (path : Str)
  | execute
  | formatSource
  | writeFile (path : Str)
  | fatal (msg : Str)
  | panic
  deriving DecidableEq, Repr

/-- The variables the walk callback closes over and changes: the map `configs`
and the log. -/
structure WalkState where
  configs : FileSet
  log : List Event
  deriving DecidableEq, Repr

/-- The callback `generateBlob` passes to `filepath.Walk`, for a call with a
`FileInfo` that is not nil (the call with a nil `FileInfo` is in
`generateBlob`). `readFile` is the file system's answer to `ioutil.ReadFile`.
The argument `err` is not looked at. -/
def walkFn (fpath : Str) (readFile : Str → ReadOutcome) (st : WalkState)
    (path : Str) (info : FileInfo) (_err : Option Str) : WalkState × Option PathError :=
  let relativePath := ToSlash (TrimPrefix path fpath)
  if info.IsDir then
    ({ st with log := st.log ++ [.println (path ++ " is a directory, skipping...".toList)] }, none)
  else
    let st1 : WalkState :=
      { st with log := st.log ++ [.println (path ++ " is a file, packing in...".toList),
                                  .readFile path] }
    match readFile path with
    | .fail op cause =>
      let e : PathError := { op := op, path := path, err := cause }
      ({ st1 with log := st1.log ++
          [.println ("Error reading ".toList ++ path ++ ": ".toList ++ e.Error)] }, some e)
    | .ok b =>
      ({ st1 with configs := st1.configs.set relativePath b }, none)

/-- What `ioutil.ReadFile` gives for a directory. The callback never reads a
directory; this is the answer of the file system if it did. -/
def readOfDir : ReadOutcome :=
  .fail "read".toList "is a directory".toList

mutual
/-- The function `walk` of `path/filepath`, for a callback that never returns
`SkipDir`: an entry that is not a directory is handed to the callback; a
directory is handed to the callback (with the error of listing it, if any) and,
when both the listing and the callback succeed, its entries are walked in
order, each under the joined path. The first error ends the walk. -/
def walk (fpath : Str) (st : WalkState) (path : Str) : Node → WalkState × Option PathError
  | .file r => walkFn fpath (fun _ => r) st path { IsDir := false } none
  | .unlistable cause _ =>
    walkFn fpath (fun _ => readOfDir) st path { IsDir := true } (some cause)
  | .dir es =>
    match walkFn fpath (fun _ => readOfDir) st path { IsDir := true } none with
    | (st1, some e) => (st1, some e)
    | (st1, none) => walkEntries fpath st1 path es
/-- The loop of `walk` over the names of a directory. -/
def walkEntries (fpath : Str) (st : WalkState) (path : Str) : Entries → WalkState × Option PathError
  | .nil => (st, none)
  | .cons name n rest =>
    match walk fpath st (Join path name) n with
    | (st1, some e) => (st1, some e)
    | (st1, none) => walkEntries fpath st1 path rest
end

/-- `filepath.Walk(fpath, callback)` for a root that can be `Lstat`ed. -/
def Walk (fpath : Str) (tree : Node) (st : WalkState) : WalkState × Option PathError :=
  walk fpath st fpath tree

/-! ## `text/template` and the three templates -/

/-- What stands inside the `range` of the templates: literal text, the action
printing the key variable, and the action calling `conv` (that is
`fmtByteSlice`) on the value variable. Package `text/template` prints the
result of an action as it is, without escaping. -/
inductive Action
  | text (s : Str)
  | printName
  | convFile
  deriving DecidableEq, Repr

/-- The top level of the templates: literal text and one `range` over the
data. -/
inductive TNode
  | text (s : Str)
  | range (body : List Action)
  deriving DecidableEq, Repr

/-- A parsed template. -/
abbrev Template := List TNode

/-- White space as the template lexer trims it. -/
def isTrimSpace (c : Char) : Bool :=
  c = ' ' || c = '\t' || c = '\r' || c = '\n'

/-- The effect of the left trim marker of an action on the text in front of it:
the trailing white space of the text is removed. -/
def rightTrim (s : Str) : Str :=
  (s.reverse.dropWhile isTrimSpace).reverse

/-- The text of a template up to the `range` action. -/
def tmplHead : Str :=
  rightTrim "package storage\n// Code generated by go generate; DO NOT EDIT.\nfunc init() \x7b\n\t".toList

/-- The text of a template after the `end` action. -/
def tmplTail : Str :=
  "\n\x7d".toList

/-- The text between the key and the value inside the `range`. -/
def tmplMid : Str :=
  [dquote] ++ ", []byte\x7b ".toList

/-- The text after the value inside the `range`, in front of the trimming `end`
action. -/
def tmplClose : Str :=
  rightTrim " \x7d)\n\t".toList

def testCaseTmpl : Template :=
  [ .text tmplHead,
    .range [ .text ("\n    \tDefaultTestCaseStore.Add(".toList ++ [dquote]), .printName,
             .text tmplMid, .convFile, .text tmplClose ],
    .text tmplTail ]

def expectationTmpl : Template :=
  [ .text tmplHead,
    .range [ .text ("\n    \tDefaultExpectationStore.Add(".toList ++ [dquote]), .printName,
             .text tmplMid, .convFile, .text tmplClose ],
    .text tmplTail ]

def stageTmpl : Template :=
  [ .text tmplHead,
    .range [ .text ("\n    \tDefaultStageStore.Add(".toList ++ [dquote]), .printName,
             .text tmplMid, .convFile, .text tmplClose ],
    .text tmplTail ]

/-- Go's `<` on strings: the lexicographic order (on UTF-8 text the order of
the bytes and the order of the characters agree). -/
def strLess : Str → Str → Bool
  | [], [] => false
  | [], _ :: _ => true
  | _ :: _, [] => false
  | a :: as, b :: bs =>
    if a.toNat < b.toNat then true
    else if b.toNat < a.toNat then false
    else strLess as bs

/-- The order in which `text/template` sorts the keys of a map. -/
def keyLE (a b : Str) : Prop :=
  strLess b a = false

instance keyLE.decidable : DecidableRel keyLE :=
  fun a b => inferInstanceAs (Decidable (strLess b a = false))

/-- The keys of a map in the order `range` visits them. Package
`text/template` documents: if the value is a map and the keys are of basic type
with a defined order, the elements are visited in sorted key order. -/
def sortKeys (ks : List Str) : List Str :=
  ks.insertionSort keyLE

/-- One action of a `range` body, for the key `name` and the value `file`. -/
def execAction (name : Str) (file : List Byte) : Action → Str
  | .text s => s
  | .printName => name
  | .convFile => fmtByteSlice file

/-- One node of a template applied to the map: text is copied; `range` runs
its body once per key, in sorted key order, with the value found under the
key (and produces nothing for an empty map). -/
def execNode (configs : FileSet) : TNode → Str
  | .text s => s
  | .range body =>
    ((sortKeys configs.keys).map
      (fun k => (body.map (execAction k (configs.index k))).flatten)).flatten

/-- The interface `executor`: the text written to the buffer and the error
returned. -/
abbrev executor := FileSet → Str × Option Str

/-- The method `Execute` of a parsed template; with a map of byte slices as data
none of the nodes can fail. -/
def Template.Execute (t : Template) : executor :=
  fun configs => ((t.map (execNode configs)).flatten, none)

/-! ## `generateBlob` -/

/-- What the file system answers for the path `fpath`.
* `notExist`: `os.Stat(fpath)` fails with an error for which `os.IsNotExist`
  holds.
* `noInfo cause`: `os.Stat` does not report that the path does not exist (it
  succeeds, or it fails in another way: the path leads through a regular file,
  a directory on the way cannot be searched), and the `os.Lstat(fpath)` of
  `filepath.Walk` fails with `cause`.
* `present tree`: `os.Stat` does not report that the path does not exist and
  `os.Lstat(fpath)` succeeds; `tree` is what is there (a directory or not). -/
inductive RootState
  | notExist
  | noInfo (cause : Str)
  | present (tree : Node)

/-- The world around one call of `generateBlob`. -/
structure Env where
  /-- What is at the path `fpath`. -/
  root : RootState
  /-- The content of the file at the path `bpath` before the call, if it
  exists. -/
  blob : Option Str
  /-- The error of `os.Create(bpath)`, if it fails. -/
  createErr : Option Str
  /-- The function `format.Source`. -/
  formatSource : Str → Except Str Str
  /-- The error of `ioutil.WriteFile`, if it fails, with what the failed write
  leaves at `bpath`. -/
  writeErr : Option (Str × Option Str)

/-- A world with the given tree at `fpath`, no file at `bpath`, and in which
creating, formatting (taken to change nothing) and writing succeed. -/
def quietEnv (root : RootState) : Env :=
  { root := root, blob := none, createErr := none, formatSource := fun s => .ok s,
    writeErr := none }

/-- The call of `log.Fatal` that ended a run. -/
inductive Stage
  | stat
  | walk
  | create
  | execute
  | format
  | write
  deriving DecidableEq, Repr

/-- How a call of `generateBlob` ends: it returns `nil`, the process exits
in `log.Fatal`, or the process ends in a run-time panic. -/
inductive Outcome
  | returned
  | fatal (stage : Stage) (msg : Str)
  | panicked
  deriving DecidableEq, Repr

/-- A finished call: its events in order, the file at `bpath` afterwards, and
how it ended. -/
structure Run where
  events : List Event
  blob : Option Str
  outcome : Outcome
  deriving DecidableEq, Repr

/-- Ending a run in `log.Fatal`. -/
def Run.die (events : List Event) (blob : Option Str) (stage : Stage) (msg : Str) : Run :=
  { events := events ++ [.fatal msg], blob := blob, outcome := .fatal stage msg }

/-- The collecting part of `generateBlob`, once the check of the directory has
passed: the map `configs` is made, empty, and the tree is walked with the
callback. -/
def collect (fpath : Str) (tree : Node) : WalkState × Option PathError :=
  let configs : FileSet := []
  Walk fpath tree { configs := configs, log := [.stat fpath, .walk fpath] }

/-- The function `generateBlob`. When the `os.Lstat` of `filepath.Walk` fails
for the root, `filepath.Walk` calls the callback with a nil `FileInfo`; the
callback computes the key and then calls `info.IsDir()` on the nil value, which
is a run-time panic, before anything is logged, read or stored. -/
def generateBlob (env : Env) (fpath bpath : Str) (tmpl : executor) : Run :=
  match env.root with
  | .notExist => Run.die [.stat fpath] env.blob .stat "Static directory does not exists!".toList
  | .noInfo _ =>
    { events := [.stat fpath, .walk fpath, .panic], blob := env.blob, outcome := .panicked }
  | .present tree =>
    match collect fpath tree with
    | (st, some err) =>
      Run.die st.log env.blob .walk ("Error walking through embed directory:".toList ++ err.Error)
    | (st, none) =>
      let ev1 := st.log ++ [.create bpath]
      match env.createErr with
      | some err => Run.die ev1 env.blob .create ("Error creating blob file:".toList ++ err)
      | none =>
        let ev2 := ev1 ++ [.execute]
        match tmpl st.configs with
        | (_, some err) => Run.die ev2 (some []) .execute ("Error executing template".toList ++ err)
        | (builder, none) =>
          let ev3 := ev2 ++ [.formatSource]
          match env.formatSource builder with
          | .error err =>
            Run.die ev3 (some []) .format ("Error formatting generated code".toList ++ err)
          | .ok data =>
            let ev4 := ev3 ++ [.writeFile bpath]
            match env.writeErr with
            | some (err, left) => Run.die ev4 left .write ("Error writing blob file".toList ++ err)
            | none => { events := ev4, blob := some data, outcome := .returned }

/-! ## Specification side: the entries of a tree in walk order -/

/-- The path `filepath.Walk` passes for the entry reached from the root by the
names `rel`: the root joined with the names one after the other. -/
def walkPath (fpath : Str) (rel : List Str) : Str :=
  rel.foldl Join fpath

/-- The key the generator computes for the entry reached by the names `rel`. -/
def walkKey (fpath : Str) (rel : List Str) : Str :=
  ToSlash (TrimPrefix (walkPath fpath rel) fpath)

mutual
/-- The entries of a tree the walk reaches, in the order of the walk (a
directory before its entries), each with the names leading to it from the root
and, for an entry that is not a directory, the outcome of reading it. The
entries of a directory that cannot be listed are not reached. -/
def Node.visits (rel : List Str) : Node → List (List Str × Option ReadOutcome)
  | .file r => [(rel, some r)]
  | .unlistable _ _ => [(rel, none)]
  | .dir es => (rel, none) :: Entries.visits rel es
/-- The entries below a directory the walk reaches, in the order of the walk. -/
def Entries.visits (rel : List Str) : Entries → List (List Str × Option ReadOutcome)
  | .nil => []
  | .cons name n rest => Node.visits (rel ++ [name]) n ++ Entries.visits rel rest
end

mutual
/-- All entries of a tree, those of a directory that cannot be listed included,
in the order a walk would take if every directory could be listed. -/
def Node.entries (rel : List Str) : Node → List (List Str × Option ReadOutcome)
  | .file r => [(rel, some r)]
  | .unlistable _ es => (rel, none) :: Entries.entries rel es
  | .dir es => (rel, none) :: Entries.entries rel es
/-- All entries below a directory. -/
def Entries.entries (rel : List Str) : Entries → List (List Str × Option ReadOutcome)
  | .nil => []
  | .cons name n rest => Node.entries (rel ++ [name]) n ++ Entries.entries rel rest
end

mutual
/-- Every directory of the tree can be listed. -/
def Node.listable : Node → Bool
  | .file _ => true
  | .unlistable _ _ => false
  | .dir es => Entries.listable es
/-- Every directory below can be listed. -/
def Entries.listable : Entries → Bool
  | .nil => true
  | .cons _ n rest => Node.listable n && Entries.listable rest
end

/-- The entries of a list of visits that are not directories. -/
def filesOf (vs : List (List Str × Option ReadOutcome)) : List (List Str × ReadOutcome) :=
  vs.filterMap (fun v => v.2.map (fun r => (v.1, r)))

/-- The entries of a tree that are not directories and that the walk finds,
in walk order, each with the names leading to it from the root. -/
def Node.files (tree : Node) : List (List Str × ReadOutcome) :=
  filesOf (tree.visits [])

/-- All entries of a tree that are not directories, whether the walk finds them
or not. -/
def Node.allFiles (tree : Node) : List (List Str × ReadOutcome) :=
  filesOf (tree.entries [])

/-- The files of a list that can be read, with their contents. -/
def contentsOf (fs : List (List Str × ReadOutcome)) : List (List Str × List Byte) :=
  fs.filterMap (fun f => match f.2 with
    | .ok c => some (f.1, c)
    | .fail _ _ => none)

/-- The files of a tree that the walk finds and that can be read, with their
contents. -/
def Node.contents (tree : Node) : List (List Str × List Byte) :=
  contentsOf tree.files

/-- The number of entries of a tree that are not directories. -/
def Node.fileCount (tree : Node) : Nat :=
  tree.allFiles.length

/-- The map assignments of the walk for a list of files: each content is
stored under the key computed from the walk path of the file. -/
def assignAll (fpath : Str) (m : FileSet) (fs : List (List Str × List Byte)) : FileSet :=
  fs.foldl (fun acc f => acc.set (walkKey fpath f.1) f.2) m

/-- A name a directory can hold: not empty, without separator, neither `.` nor
`..`. -/
def validName (n : Str) : Bool :=
  n ≠ [] && !n.contains Separator && n ≠ ['.'] && n ≠ ['.', '.']

/-- The names of the entries of a directory. -/
def Entries.names : Entries → List Str
  | .nil => []
  | .cons name _ rest => name :: rest.names

mutual
/-- A well-formed tree: in every directory the names are valid and pairwise
different. -/
def Node.wf : Node → Bool
  | .file _ => true
  | .unlistable _ es => Entries.wf es
  | .dir es => Entries.wf es
/-- Well-formed entries of a directory. -/
def Entries.wf : Entries → Bool
  | .nil => true
  | .cons name n rest =>
    validName name && !rest.names.contains name && Node.wf n && Entries.wf rest
end

/-- Whether a read succeeded. -/
def ReadOutcome.isOk : ReadOutcome → Bool
  | .ok _ => true
  | .fail _ _ => false

/-- Every read the walk makes succeeds: every file of the tree the walk finds can
be read. -/
def Node.readable (tree : Node) : Prop :=
  ∀ f ∈ tree.files, f.2.isOk = true

instance Node.readable.decidable (tree : Node) : Decidable tree.readable :=
  inferInstanceAs (Decidable (∀ f ∈ tree.files, f.2.isOk = true))

/-- The path of an entry relative to the root, with slashes between the names
and no leading separator. -/
def relPath (rel : List Str) : Str :=
  joinWith ['/'] rel

/-- A root path in cleaned form that is neither `.` nor the root directory. -/
def cleanRoot (fpath : Str) : Prop :=
  Clean fpath = fpath ∧ fpath ≠ ['.'] ∧ fpath ≠ ['/']

/-- The root path is a textual prefix of the walk path of every file of the
tree, or of the walk path of none. -/
def uniformRoot (fpath : Str) (tree : Node) : Prop :=
  (∀ f ∈ tree.allFiles, HasPrefix (walkPath fpath f.1) fpath = true)
    ∨ (∀ f ∈ tree.allFiles, HasPrefix (walkPath fpath f.1) fpath = false)

instance uniformRoot.decidable (fpath : Str) (tree : Node) : Decidable (uniformRoot fpath tree) :=
  inferInstanceAs (Decidable (
    (∀ f ∈ tree.allFiles, HasPrefix (walkPath fpath f.1) fpath = true)
      ∨ (∀ f ∈ tree.allFiles, HasPrefix (walkPath fpath f.1) fpath = false)))

/-- An element `filepath.Clean` can keep: not empty, without separator, not
`.`. -/
def isElem (e : Str) : Prop :=
  e ≠ [] ∧ e.contains Separator = false ∧ e ≠ ['.']

/-- The lists of kept elements `filepath.Clean` can reach (last element first):
a `..` is kept only in a path that is not rooted, and only at the start of the
path or after another `..`. -/
def normalStack (rooted : Bool) : List Str → Prop
  | [] => True
  | e :: below =>
    isElem e ∧ normalStack rooted below
      ∧ (e = ['.', '.'] → rooted = false ∧ (below = [] ∨ below.head? = some ['.', '.']))

/-- The path made of the kept elements `out` (last element first). -/
def render (rooted : Bool) (out : List Str) : Str :=
  if rooted then Separator :: joinWith [Separator] out.reverse
  else joinWith [Separator] out.reverse

/-- What `filepath.Join` puts in front of a name joined to the root path: the
cleaned root path and a separator, or just the separator for the root directory,
or nothing when the cleaned root path is `.`. -/
def joinBase (fpath : Str) : Str :=
  if fpath = [] then []
  else if cleanOut fpath = [] then
    (if fpath.head? = some Separator then [Separator] else [])
  else render (fpath.head? = some Separator) (cleanOut fpath) ++ [Separator]

instance cleanRoot.decidable (fpath : Str) : Decidable (cleanRoot fpath) :=
  inferInstanceAs (Decidable (Clean fpath = fpath ∧ fpath ≠ ['.'] ∧ fpath ≠ ['/']))

/-- The paths handed to `ioutil.ReadFile` during a run, in order. -/
def readPaths (events : List Event) : List Str :=
  events.filterMap (fun e => match e with
    | .readFile p => some p
    | _ => none)

/-- Whether a run created (or truncated) a file. -/
def createsFile (events : List Event) : Bool :=
  events.any (fun e => match e with
    | .create _ => true
    | _ => false)

/-- Two lists of entries that stand for the same map: both have pairwise
different keys and they hold the same entries. -/
def sameMap (m1 m2 : FileSet) : Prop :=
  m1.keys.Nodup ∧ m2.keys.Nodup ∧ ∀ e, e ∈ m1 ↔ e ∈ m2

/-- The callback applied to one visit of the walk. -/
def visitFn (fpath : Str) (st : WalkState) (v : List Str × Option ReadOutcome) :
    WalkState × Option PathError :=
  match v.2 with
  | none => walkFn fpath (fun _ => readOfDir) st (walkPath fpath v.1) { IsDir := true } none
  | some r => walkFn fpath (fun _ => r) st (walkPath fpath v.1) { IsDir := false } none

/-- The callback applied to a list of visits one after the other, up to the
first error. -/
def runVisits (fpath : Str) : WalkState → List (List Str × Option ReadOutcome) →
    WalkState × Option PathError
  | st, [] => (st, none)
  | st, v :: vs =>
    match visitFn fpath st v with
    | (st1, some e) => (st1, some e)
    | (st1, none) => runVisits fpath st1 vs

/-- The path of an entry relative to the root with a separator in front of
every name. -/
def slashPath (rel : List Str) : Str :=
  (rel.map (fun n => Separator :: n)).flatten

/-- A text that is empty or starts with a separator. -/
def startsSep (x : Str) : Prop :=
  x = [] ∨ ∃ t, x = Separator :: t

/-- The scenario of the specification: the file `a.json` with the bytes `7B 7D`
and the file `sub/b.txt` with the bytes `68 69`. -/
def scenarioTree : Node :=
  .dir (.cons "a.json".toList (.file (.ok [0x7B, 0x7D]))
    (.cons "sub".toList (.dir (.cons "b.txt".toList (.file (.ok [0x68, 0x69])) .nil)) .nil))

/-- The directory `a.json`, `locked/secret.txt` in which the directory `locked`
cannot be listed. -/
def lockedTree : Node :=
  .dir (.cons "a.json".toList (.file (.ok [0x7B, 0x7D]))
    (.cons "locked".toList
      (.unlistable "permission denied".toList
        (.cons "secret.txt".toList (.file (.ok [0x68, 0x69])) .nil)) .nil))

/-- A directory holding the two files `.a` and `a`. -/
def dotTree : Node :=
  .dir (.cons ".a".toList (.file (.ok [1])) (.cons "a".toList (.file (.ok [2])) .nil))

/-- A directory with three files of which the second cannot be opened. -/
def brokenTree : Node :=
  .dir (.cons "a.json".toList (.file (.ok [0x7B, 0x7D]))
    (.cons "bad.txt".toList (.file (.fail "open".toList "permission denied".toList))
      (.cons "z.txt".toList (.file (.ok [0x68, 0x69])) .nil)))

/-- A world like `quietEnv` in which the file at `bpath` holds `old` and
`format.Source` rejects every text. -/
def rejectingEnv (root : RootState) (old : Str) : Env :=
  { root := root, blob := some old, createErr := none,
    formatSource := fun _ => .error "syntax error".toList, writeErr := none }

/-- The map of the scenario of the specification, as the walk builds it. -/
def scenarioFiles : FileSet :=
  [("/a.json".toList, [0x7B, 0x7D]), ("/sub/b.txt".toList, [0x68, 0x69])]

/-- The same map with its entries listed in the other order. -/
def scenarioFilesSwapped : FileSet :=
  [("/sub/b.txt".toList, [0x68, 0x69]), ("/a.json".toList, [0x7B, 0x7D])]

/-- A map whose only key, `/a"b`, holds a double quote. -/
def quoteFiles : FileSet :=
  [(['/', 'a', dquote, 'b'], [1])]

/-- A map whose only key, `/x\ty`, holds a backslash. -/
def backslashFiles : FileSet :=
  [(['/', 'x', backslash, 't', 'y'], [1])]

/-- A map whose only key holds a byte order mark between `/` and `a`. -/
def bomFiles : FileSet :=
  [(['/', bom, 'a'], [1])]

/-! ## Specification side: the generated text -/

/-- The fixed header of a generated file. -/
def blobHeader : Str :=
  "package storage\n// Code generated by go generate; DO NOT EDIT.\nfunc init() \x7b".toList

/-- One registration call, on a line of its own. -/
def regLine (store : Str) (e : Str × List Byte) : Str :=
  "\n    \t".toList ++ store ++ ".Add(".toList ++ [dquote] ++ e.1 ++ [dquote]
    ++ ", []byte\x7b ".toList ++ fmtByteSlice e.2 ++ " \x7d)".toList

/-- The generated text for a list of entries: the header, one registration call
per entry, the closing brace. -/
def blobText (store : Str) (entries : FileSet) : Str :=
  blobHeader ++ (entries.map (regLine store)).flatten ++ "\n\x7d".toList

/-- The entries of a map in the order of its sorted keys. -/
def sortedEntries (m : FileSet) : FileSet :=
  (sortKeys m.keys).map (fun k => (k, m.index k))

/-! ### Go's interpreted string literals -/

/-- The value of a hexadecimal digit. -/
def hexDigit (c : Char) : Option Nat :=
  if c.isDigit then some (c.toNat - 48)
  else if 97 ≤ c.toNat ∧ c.toNat ≤ 102 then some (c.toNat - 87)
  else if 65 ≤ c.toNat ∧ c.toNat ≤ 70 then some (c.toNat - 55)
  else none

/-- The single-character escapes of an interpreted string literal. -/
def simpleEscape (c : Char) : Option Char :=
  if c = 'a' then some (Char.ofNat 7)
  else if c = 'b' then some (Char.ofNat 8)
  else if c = 'f' then some (Char.ofNat 12)
  else if c = 'n' then some (Char.ofNat 10)
  else if c = 'r' then some (Char.ofNat 13)
  else if c = 't' then some (Char.ofNat 9)
  else if c = 'v' then some (Char.ofNat 11)
  else if c = backslash then some backslash
  else if c = dquote then some dquote
  else none

/-- Where the scanner of a string literal stands: in plain text, right after
a backslash, or inside a numeric escape of the given base of which `need` digits
are still to come and whose digits so far have the value `val`. -/
inductive Esc
  | plain
  | start
  | digits (base : Nat) (need : Nat) (val : Nat)
  deriving DecidableEq, Repr

/-- The body of an interpreted string literal, after the opening quote: the
characters up to the closing quote, with escape sequences replaced by their
values (`\x` with two hexadecimal digits, `\u` with four, `\U` with eight,
a backslash with three octal digits, and the single-character escapes). A line
break inside the literal, an unknown or malformed escape, an escape whose value
is out of range and a missing closing quote are errors, and so are the
characters the scanner of package `go/scanner` rejects wherever they stand in a
source text: NUL and the byte order mark. The result is the value of the
literal (appended to `acc`) and the text after the closing quote. An escape
for a byte above 127 is given the character with that number. -/
def scanBody : Str → Esc → Str → Option (Str × Str)
  | [], _, _ => none
  | c :: rest, .plain, acc =>
    if c = dquote then some (acc, rest)
    else if c = '\n' then none
    else if c = nul then none
    else if c = bom then none
    else if c = backslash then scanBody rest .start acc
    else scanBody rest .plain (acc ++ [c])
  | c :: rest, .start, acc =>
    match simpleEscape c with
    | some v => scanBody rest .plain (acc ++ [v])
    | none =>
      if c = 'x' then scanBody rest (.digits 16 2 0) acc
      else if c = 'u' then scanBody rest (.digits 16 4 0) acc
      else if c = 'U' then scanBody rest (.digits 16 8 0) acc
      else
        match hexDigit c with
        | none => none
        | some d => if d < 8 then scanBody rest (.digits 8 2 d) acc else none
  | c :: rest, .digits base need val, acc =>
    match hexDigit c with
    | none => none
    | some d =>
      if d < base then
        let v := val * base + d
        if need ≤ 1 then
          if (base = 8 ∧ v < 256) ∨ (base = 16 ∧ v.isValidChar) then
            scanBody rest .plain (acc ++ [Char.ofNat v])
          else none
        else scanBody rest (.digits base (need - 1) v) acc
      else none

/-- An interpreted string literal at the start of a text: its value and the
text after it. -/
def scanString : Str → Option (Str × Str)
  | [] => none
  | c :: rest => if c = dquote then scanBody rest .plain [] else none

/-- `stripLead pre text`: the text after the leading `pre`, when the text
starts with it. -/
def stripLead (pre text : Str) : Option Str :=
  if pre.isPrefixOf text then some (text.drop pre.length) else none

/-- The characters of the element list `fmtByteSlice` writes. -/
def isElemChar (c : Char) : Bool :=
  c.isDigit || c = ','

/-- Reading one registration call of a generated file: the store and `.Add(`,
an interpreted string literal, `, []byte{ `, an element list of decimal literals,
` })`. The result is the pair read and the text after the call. -/
def readCall (store : Str) (text : Str) : Option ((Str × List Byte) × Str) :=
  match stripLead ("\n    \t".toList ++ store ++ ".Add(".toList) text with
  | none => none
  | some t1 =>
    match scanString t1 with
    | none => none
    | some (key, t2) =>
      match stripLead ", []byte\x7b ".toList t2 with
      | none => none
      | some t3 =>
        match parseByteLiteral (t3.takeWhile isElemChar) with
        | none => none
        | some bytes =>
          match stripLead " \x7d)".toList (t3.dropWhile isElemChar) with
          | none => none
          | some t4 => some ((key, bytes), t4)

/-- Reading registration calls up to the closing brace; `fuel` bounds the number
of calls. -/
def readCalls (store : Str) : Nat → Str → Option FileSet
  | 0, _ => none
  | fuel + 1, text =>
    if text = "\n\x7d".toList then some []
    else
      match readCall store text with
      | none => none
      | some (e, rest) => (readCalls store fuel rest).map (fun es => e :: es)

/-- Reading back a generated file: the header, then the registration calls (at
most one per character of the text). -/
def readBack (store : Str) (text : Str) : Option FileSet :=
  match stripLead blobHeader text with
  | none => none
  | some t => readCalls store (t.length + 1) t

/-- A key that can stand between double quotes unchanged: it has no double
quote, no backslash, no line break, no NUL and no byte order mark. -/
def plainKey (k : Str) : Prop :=
  ∀ c ∈ k, c ≠ dquote ∧ c ≠ backslash ∧ c ≠ '\n' ∧ c ≠ nul ∧ c ≠ bom

instance plainKey.decidable (k : Str) : Decidable (plainKey k) :=
  inferInstanceAs (Decidable (∀ c ∈ k, c ≠ dquote ∧ c ≠ backslash ∧ c ≠ '\n' ∧ c ≠ nul ∧ c ≠ bom))

/-! # Theorems -/

/-! ## The byte encoder -/

set_option maxRecDepth 200000 in
/-- For a byte, `%d` prints the decimal digits Lean's `Nat.toDigits` gives. -/
theorem fmtInteger_byte : ∀ v : Byte, fmtInteger ((v.val : Int)) = Nat.toDigits 10 v.val := by
  decide

set_option maxRecDepth 200000 in
/-- The text printed for a byte is the decimal numeral of its value. -/
theorem fmtInteger_byte_decimal :
    ∀ v : Byte, isDecimalOf (fmtInteger ((v.val : Int))) v.val = true := by
  decide

set_option maxRecDepth 200000 in
/-- The text printed for a byte reads back as that byte, and is made of digits. -/
theorem decimalLit_fmtInteger :
    ∀ v : Byte, decimalLit (fmtInteger ((v.val : Int))) = some v
      ∧ (fmtInteger ((v.val : Int))).all Char.isDigit = true := by
  decide

theorem fmtByteSlice_foldl (s : List Byte) (acc : Str) :
    s.foldl (fun builder v => builder ++ sprintfDComma ((v.val : Int))) acc
      = acc ++ (s.map (fun v => sprintfDComma ((v.val : Int)))).flatten := by
  induction s generalizing acc with
  | nil => simp
  | cons v s ih => simp [ih]

theorem fmtByteSlice_eq_flatten (s : List Byte) :
    fmtByteSlice s = (s.map (fun v => sprintfDComma ((v.val : Int)))).flatten := by
  simp [fmtByteSlice, fmtByteSlice_foldl]

theorem fmtByteSlice_cons (v : Byte) (s : List Byte) :
    fmtByteSlice (v :: s) = fmtInteger ((v.val : Int)) ++ ',' :: fmtByteSlice s := by
  simp [fmtByteSlice_eq_flatten, sprintfDComma]

theorem isDigit_ne_comma {c : Char} (h : c.isDigit = true) : c ≠ ',' := by
  rintro rfl
  exact absurd h (by decide)

theorem parseElements_digits (ds : Str) (hd : ds.all Char.isDigit = true) (rest cur : Str) :
    parseElements (ds ++ ',' :: rest) cur
      = match decimalLit (cur ++ ds) with
        | none => none
        | some b => (parseElements rest []).map (fun bs => b :: bs) := by
  induction ds generalizing cur with
  | nil => simp [parseElements]
  | cons d ds ih =>
    simp only [List.all_cons, Bool.and_eq_true] at hd
    have hc : d ≠ ',' := isDigit_ne_comma hd.1
    have happ : (d :: ds) ++ ',' :: rest = d :: (ds ++ ',' :: rest) := rfl
    rw [happ, parseElements]
    simp only [hc, if_false, hd.1, if_true]
    rw [ih hd.2]
    simp

theorem parseElements_fmtByteSlice (s : List Byte) :
    parseElements (fmtByteSlice s) [] = some s := by
  induction s with
  | nil => simp [fmtByteSlice, parseElements]
  | cons v s ih =>
    rw [fmtByteSlice_cons, parseElements_digits _ (decimalLit_fmtInteger v).2]
    rw [List.nil_append, (decimalLit_fmtInteger v).1, ih]
    rfl

/-- C1: `fmtByteSlice s` is the concatenation, in order, of the decimal numeral
of every byte followed by one comma, where the numeral has no sign and no
leading zero and its value, between 0 and 255, is the byte; the empty sequence
gives the empty string and the bytes `7B 7D` give `123,125,`. -/
theorem fmtByteSlice_spec :
    (∀ s : List Byte,
        fmtByteSlice s = (s.map (fun v => Nat.toDigits 10 v.val ++ [','])).flatten)
    ∧ (∀ v : Byte, isDecimalOf (Nat.toDigits 10 v.val) v.val = true ∧ v.val ≤ 255)
    ∧ fmtByteSlice [] = []
    ∧ fmtByteSlice [0x7B, 0x7D] = "123,125,".toList := by
  refine ⟨fun s => ?_, fun v => ⟨?_, by omega⟩, rfl, by decide⟩
  · rw [fmtByteSlice_eq_flatten]
    congr 1
    apply List.map_congr_left
    intro v _
    rw [sprintfDComma, fmtInteger_byte]
  · rw [← fmtInteger_byte]
    exact fmtInteger_byte_decimal v

/-- C2: parsing `fmtByteSlice s` as the element list of a `[]byte` literal
(decimal literals separated by commas, a trailing comma allowed) gives back `s`,
for every byte sequence `s`; hence `fmtByteSlice` is injective. -/
theorem fmtByteSlice_roundtrip :
    (∀ s : List Byte, parseByteLiteral (fmtByteSlice s) = some s)
    ∧ Function.Injective fmtByteSlice := by
  refine ⟨parseElements_fmtByteSlice, fun a b h => ?_⟩
  have ha := parseElements_fmtByteSlice a
  rw [h, parseElements_fmtByteSlice b] at ha
  exact (Option.some.inj ha).symm

/-! ## Paths -/

theorem toSlash_eq (p : Str) : ToSlash p = p := by
  simp [ToSlash, Separator]

theorem trimPrefix_append (d x : Str) : TrimPrefix (d ++ x) d = x := by
  simp [TrimPrefix, HasPrefix]

theorem splitSep_ne_nil (p : Str) : splitSep p ≠ [] := by
  cases p with
  | nil => simp [splitSep]
  | cons c cs =>
    rw [splitSep]
    split
    · simp
    · split <;> simp

theorem splitSep_append (a b : Str) :
    splitSep (a ++ Separator :: b) = splitSep a ++ splitSep b := by
  induction a with
  | nil => simp [splitSep]
  | cons c a ih =>
    have happ : (c :: a) ++ Separator :: b = c :: (a ++ Separator :: b) := rfl
    rw [happ, splitSep, splitSep, ih]
    by_cases hc : c = Separator
    · simp [hc]
    · simp only [hc, if_false]
      cases hs : splitSep a with
      | nil => exact absurd hs (splitSep_ne_nil a)
      | cons e es => simp

theorem splitSep_name (n : Str) (h : n.contains Separator = false) : splitSep n = [n] := by
  induction n with
  | nil => simp [splitSep]
  | cons c cs ih =>
    have hc : c ≠ Separator := by
      intro hEQ
      simp [hEQ] at h
    have hcs : cs.contains Separator = false := by
      cases hx : cs.contains Separator with
      | false => rfl
      | true =>
        have : (c :: cs).contains Separator = true := by
          simp only [List.contains_cons, hx, Bool.or_true]
        rw [this] at h
        exact absurd h (by decide)
    rw [splitSep, ih hcs]
    simp [hc]

theorem validName_spec {n : Str} (h : validName n = true) :
    n ≠ [] ∧ n.contains Separator = false ∧ n ≠ ['.'] ∧ n ≠ ['.', '.'] := by
  simp only [validName, Bool.and_eq_true, decide_eq_true_eq, Bool.not_eq_true'] at h
  exact ⟨h.1.1.1, h.1.1.2, h.1.2, h.2⟩

theorem cleanStep_name (rooted : Bool) (out : List Str) {n : Str} (h : validName n = true) :
    cleanStep rooted out n = n :: out := by
  obtain ⟨h1, _, h3, h4⟩ := validName_spec h
  simp [cleanStep, h1, h3, h4]

theorem joinWith_cons_cons (sep e e2 : Str) (es : List Str) :
    joinWith sep (e :: e2 :: es) = e ++ sep ++ joinWith sep (e2 :: es) := by
  simp [joinWith]

theorem joinWith_snoc (sep : Str) (l : List Str) (hl : l ≠ []) (n : Str) :
    joinWith sep (l ++ [n]) = joinWith sep l ++ sep ++ n := by
  induction l with
  | nil => exact absurd rfl hl
  | cons e es ih =>
    cases es with
    | nil => simp [joinWith]
    | cons e2 es2 =>
      have h2 : (e :: e2 :: es2) ++ [n] = e :: e2 :: (es2 ++ [n]) := rfl
      have h3 : (e2 :: es2) ++ [n] = e2 :: (es2 ++ [n]) := rfl
      rw [h2, joinWith_cons_cons, ← h3, ih (by simp), joinWith_cons_cons]
      simp [List.append_assoc]

theorem cleanOut_join (p : Str) (hp : p ≠ []) {n : Str} (hn : validName n = true) :
    cleanOut (p ++ Separator :: n) = n :: cleanOut p := by
  have hh : (p ++ Separator :: n).head? = p.head? := by
    cases p with
    | nil => exact absurd rfl hp
    | cons c cs => rfl
  unfold cleanOut
  rw [splitSep_append, splitSep_name n (validName_spec hn).2.1, List.foldl_append, hh]
  simp only [List.foldl_cons, List.foldl_nil]
  exact cleanStep_name _ _ hn

theorem clean_join (p : Str) (hp : p ≠ []) (hout : cleanOut p ≠ []) {n : Str}
    (hn : validName n = true) :
    Clean (p ++ Separator :: n) = Clean p ++ Separator :: n := by
  have hh : (p ++ Separator :: n).head? = p.head? := by
    cases p with
    | nil => exact absurd rfl hp
    | cons c cs => rfl
  have hne : p ++ Separator :: n ≠ [] := by simp
  unfold Clean
  simp only [hne, hp, if_false, hh, cleanOut_join p hp hn, List.reverse_cons]
  rw [joinWith_snoc _ _ (by simpa using hout)]
  by_cases hr : p.head? = some Separator
  · simp [hr]
  · simp [hr, hout]

theorem cleanRoot_ne_nil {p : Str} (h : cleanRoot p) : p ≠ [] := by
  intro hp
  have h1 := h.1
  rw [hp] at h1
  simp [Clean] at h1

theorem cleanRoot_cleanOut {p : Str} (h : cleanRoot p) : cleanOut p ≠ [] := by
  intro ho
  have hp := cleanRoot_ne_nil h
  have h1 := h.1
  unfold Clean at h1
  simp only [hp, if_false, ho, List.reverse_nil, joinWith] at h1
  by_cases hr : p.head? = some Separator
  · simp only [hr, decide_True, if_true] at h1
    exact h.2.2 (by rw [← h1]; rfl)
  · simp only [hr, decide_False, if_true] at h1
    exact h.2.1 (by rw [← h1]; simp)

theorem join_cleanRoot {p : Str} (h : cleanRoot p) {n : Str} (hn : validName n = true) :
    Join p n = p ++ Separator :: n ∧ cleanRoot (p ++ Separator :: n) := by
  have hp := cleanRoot_ne_nil h
  have hc := clean_join p hp (cleanRoot_cleanOut h) hn
  rw [h.1] at hc
  refine ⟨by simp [Join, hp, hc], hc, ?_, ?_⟩
  · cases p with
    | nil => exact absurd rfl hp
    | cons c cs => simp
  · cases p with
    | nil => exact absurd rfl hp
    | cons c cs => simp

theorem walkPath_cleanRoot (rel : List Str) (hrel : ∀ n ∈ rel, validName n = true) :
    ∀ {p : Str}, cleanRoot p → walkPath p rel = p ++ slashPath rel := by
  induction rel with
  | nil => intro p _; simp [walkPath, slashPath]
  | cons n ns ih =>
    intro p hp
    have hj := join_cleanRoot hp (hrel n (by simp))
    have := ih (fun m hm => hrel m (by simp [hm])) hj.2
    simp only [walkPath, List.foldl_cons] at this ⊢
    rw [hj.1, this]
    simp [slashPath]

theorem walkKey_cleanRoot {p : Str} (hp : cleanRoot p) (rel : List Str)
    (hrel : ∀ n ∈ rel, validName n = true) : walkKey p rel = slashPath rel := by
  rw [walkKey, walkPath_cleanRoot rel hrel hp, trimPrefix_append, toSlash_eq]

theorem slashPath_eq_relPath (n : Str) (ns : List Str) :
    slashPath (n :: ns) = '/' :: relPath (n :: ns) := by
  induction ns generalizing n with
  | nil => simp [slashPath, relPath, joinWith, Separator]
  | cons m ms ih =>
    have := ih m
    simp only [slashPath, List.map_cons, List.flatten_cons, relPath] at this ⊢
    rw [this, joinWith_cons_cons]
    simp [Separator]

/-! ## The walk as a loop over the entries in walk order -/

theorem walkFn_dir (fpath : Str) (rf : Str → ReadOutcome) (st : WalkState) (path : Str)
    (err : Option Str) :
    walkFn fpath rf st path { IsDir := true } err
      = ({ st with log := st.log ++ [.println (path ++ " is a directory, skipping...".toList)] },
          none) := by
  simp [walkFn]

theorem runVisits_append (fpath : Str) (a b : List (List Str × Option ReadOutcome))
    (st : WalkState) :
    runVisits fpath st (a ++ b)
      = match runVisits fpath st a with
        | (st1, some e) => (st1, some e)
        | (st1, none) => runVisits fpath st1 b := by
  induction a generalizing st with
  | nil => simp [runVisits]
  | cons v vs ih =>
    have happ : (v :: vs) ++ b = v :: (vs ++ b) := rfl
    rw [happ, runVisits, runVisits]
    rcases hv : visitFn fpath st v with ⟨st1, _ | e⟩
    · simp only []
      exact ih st1
    · simp

mutual
theorem walk_eq_runVisits (fpath : Str) (rel : List Str) :
    ∀ (n : Node) (st : WalkState),
      walk fpath st (walkPath fpath rel) n = runVisits fpath st (n.visits rel)
  | .file r, st => by
    simp [walk, Node.visits, runVisits, visitFn]
    rcases walkFn fpath (fun _ => r) st (walkPath fpath rel) { IsDir := false } none
      with ⟨st1, _ | e⟩ <;> rfl
  | .unlistable cause es, st => by
    simp [walk, Node.visits, runVisits, visitFn, walkFn_dir]
  | .dir es, st => by
    simp only [walk, Node.visits, runVisits, visitFn, walkFn_dir]
    exact walkEntries_eq_runVisits fpath rel es _
theorem walkEntries_eq_runVisits (fpath : Str) (rel : List Str) :
    ∀ (es : Entries) (st : WalkState),
      walkEntries fpath st (walkPath fpath rel) es = runVisits fpath st (es.visits rel)
  | .nil, st => by simp [walkEntries, Entries.visits, runVisits]
  | .cons name n rest, st => by
    have hp : Join (walkPath fpath rel) name = walkPath fpath (rel ++ [name]) := by
      simp [walkPath, List.foldl_append]
    rw [walkEntries, Entries.visits, runVisits_append, hp, walk_eq_runVisits fpath (rel ++ [name]) n st]
    rcases runVisits fpath st (n.visits (rel ++ [name])) with ⟨st1, _ | e⟩
    · simp only []
      exact walkEntries_eq_runVisits fpath rel rest st1
    · rfl
end

theorem Walk_eq_runVisits (fpath : Str) (tree : Node) (st : WalkState) :
    Walk fpath tree st = runVisits fpath st (tree.visits []) := by
  have := walk_eq_runVisits fpath [] tree st
  simpa [Walk, walkPath] using this

theorem visitFn_dir (fpath : Str) (st : WalkState) (rel : List Str) :
    visitFn fpath st (rel, none)
      = ({ st with log := st.log ++
            [.println (walkPath fpath rel ++ " is a directory, skipping...".toList)] }, none) := by
  simp [visitFn, walkFn_dir]

theorem visitFn_ok (fpath : Str) (st : WalkState) (rel : List Str) (c : List Byte) :
    visitFn fpath st (rel, some (.ok c))
      = ({ configs := st.configs.set (walkKey fpath rel) c,
           log := st.log ++ [.println (walkPath fpath rel ++ " is a file, packing in...".toList),
                             .readFile (walkPath fpath rel)] }, none) := by
  simp [visitFn, walkFn, walkKey]

theorem visitFn_fail (fpath : Str) (st : WalkState) (rel : List Str) (op cause : Str) :
    visitFn fpath st (rel, some (.fail op cause))
      = ({ configs := st.configs,
           log := st.log ++ [.println (walkPath fpath rel ++ " is a file, packing in...".toList),
                             .readFile (walkPath fpath rel)] ++
              [.println ("Error reading ".toList ++ walkPath fpath rel ++ ": ".toList ++
                PathError.Error { op := op, path := walkPath fpath rel, err := cause })] },
          some { op := op, path := walkPath fpath rel, err := cause }) := by
  simp [visitFn, walkFn]

theorem readPaths_append (a b : List Event) : readPaths (a ++ b) = readPaths a ++ readPaths b := by
  simp [readPaths, List.filterMap_append]

theorem createsFile_append (a b : List Event) :
    createsFile (a ++ b) = (createsFile a || createsFile b) := by
  simp [createsFile, List.any_append]

/-- The walk over entries whose files can all be read: it ends without error,
it has read every file once, in order, and it has made the assignments of these
files. -/
theorem runVisits_readable (fpath : Str) :
    ∀ (vs : List (List Str × Option ReadOutcome)) (st : WalkState),
      (∀ f ∈ filesOf vs, ∃ c, f.2 = .ok c) →
      ∃ st1, runVisits fpath st vs = (st1, none)
        ∧ st1.configs = assignAll fpath st.configs (contentsOf (filesOf vs))
        ∧ readPaths st1.log
            = readPaths st.log ++ (filesOf vs).map (fun f => walkPath fpath f.1)
        ∧ createsFile st1.log = createsFile st.log := by
  intro vs
  induction vs with
  | nil =>
    intro st _
    exact ⟨st, rfl, by simp [filesOf, contentsOf, assignAll], by simp [filesOf], rfl⟩
  | cons v vs ih =>
    intro st h
    obtain ⟨rel, k⟩ := v
    cases k with
    | none =>
      have hf : filesOf ((rel, none) :: vs) = filesOf vs := by simp [filesOf]
      rw [hf] at h ⊢
      obtain ⟨st1, h1, h2, h3, h4⟩ := ih
        { st with log := st.log ++
            [.println (walkPath fpath rel ++ " is a directory, skipping...".toList)] } h
      refine ⟨st1, ?_, h2, ?_, ?_⟩
      · rw [runVisits, visitFn_dir]
        exact h1
      · rw [h3, readPaths_append]
        simp [readPaths]
      · rw [h4, createsFile_append]
        simp [createsFile]
    | some r =>
      have hf : filesOf ((rel, some r) :: vs) = (rel, r) :: filesOf vs := by simp [filesOf]
      rw [hf] at h ⊢
      obtain ⟨c, hc⟩ := h (rel, r) (by simp)
      simp only at hc
      subst hc
      obtain ⟨st1, h1, h2, h3, h4⟩ := ih
        { configs := st.configs.set (walkKey fpath rel) c,
          log := st.log ++ [.println (walkPath fpath rel ++ " is a file, packing in...".toList),
                            .readFile (walkPath fpath rel)] }
        (fun f hfm => h f (by simp [hfm]))
      refine ⟨st1, ?_, ?_, ?_, ?_⟩
      · rw [runVisits, visitFn_ok]
        exact h1
      · rw [h2]
        simp [contentsOf, assignAll]
      · rw [h3, readPaths_append]
        simp [readPaths]
      · rw [h4, createsFile_append]
        simp [createsFile]

/-- The walk over entries among whose files one cannot be read: it ends with
the error of the first such file, after having read the files in front of it
and this file, and no other. -/
theorem runVisits_fail (fpath : Str) :
    ∀ (vs : List (List Str × Option ReadOutcome)) (st : WalkState)
      (pre post : List (List Str × ReadOutcome)) (rel : List Str) (op cause : Str),
      filesOf vs = pre ++ (rel, .fail op cause) :: post →
      (∀ f ∈ pre, ∃ c, f.2 = .ok c) →
      ∃ st1, runVisits fpath st vs
            = (st1, some { op := op, path := walkPath fpath rel, err := cause })
        ∧ st1.configs = assignAll fpath st.configs (contentsOf pre)
        ∧ readPaths st1.log
            = readPaths st.log ++ pre.map (fun f => walkPath fpath f.1) ++ [walkPath fpath rel]
        ∧ createsFile st1.log = createsFile st.log := by
  intro vs
  induction vs with
  | nil =>
    intro st pre post rel op cause h _
    simp [filesOf] at h
  | cons v vs ih =>
    intro st pre post rel op cause h hpre
    obtain ⟨rel0, k⟩ := v
    cases k with
    | none =>
      have hf : filesOf ((rel0, none) :: vs) = filesOf vs := by simp [filesOf]
      rw [hf] at h
      obtain ⟨st1, h1, h2, h3, h4⟩ := ih
        { st with log := st.log ++
            [.println (walkPath fpath rel0 ++ " is a directory, skipping...".toList)] }
        pre post rel op cause h hpre
      refine ⟨st1, ?_, h2, ?_, ?_⟩
      · rw [runVisits, visitFn_dir]
        exact h1
      · rw [h3, readPaths_append]
        simp [readPaths]
      · rw [h4, createsFile_append]
        simp [createsFile]
    | some r =>
      have hf : filesOf ((rel0, some r) :: vs) = (rel0, r) :: filesOf vs := by simp [filesOf]
      rw [hf] at h
      cases r with
      | ok c =>
        cases pre with
        | nil => simp at h
        | cons f pre1 =>
          simp only [List.cons_append, List.cons.injEq] at h
          obtain ⟨hfe, hrest⟩ := h
          subst hfe
          obtain ⟨st1, h1, h2, h3, h4⟩ := ih
            { configs := st.configs.set (walkKey fpath rel0) c,
              log := st.log ++
                [.println (walkPath fpath rel0 ++ " is a file, packing in...".toList),
                 .readFile (walkPath fpath rel0)] }
            pre1 post rel op cause hrest (fun f hfm => hpre f (by simp [hfm]))
          refine ⟨st1, ?_, ?_, ?_, ?_⟩
          · rw [runVisits, visitFn_ok]
            exact h1
          · rw [h2]
            simp [contentsOf, assignAll]
          · rw [h3, readPaths_append]
            simp [readPaths]
          · rw [h4, createsFile_append]
            simp [createsFile]
      | fail op0 cause0 =>
        cases pre with
        | nil =>
          simp only [List.nil_append, List.cons.injEq, Prod.mk.injEq, ReadOutcome.fail.injEq] at h
          obtain ⟨⟨hr, ho, hc⟩, _⟩ := h
          subst hr ho hc
          refine ⟨_, by rw [runVisits, visitFn_fail], ?_, ?_, ?_⟩
          · simp [contentsOf, assignAll]
          · simp [readPaths_append, readPaths]
          · simp [createsFile_append, createsFile]
        | cons f pre1 =>
          simp only [List.cons_append, List.cons.injEq] at h
          obtain ⟨c, hc⟩ := hpre f (by simp)
          rw [← h.1] at hc
          simp at hc

/-! ## Keys of the files of a well-formed tree -/

theorem slashPath_startsSep (rel : List Str) : startsSep (slashPath rel) := by
  cases rel with
  | nil => exact Or.inl rfl
  | cons n ns => exact Or.inr ⟨n ++ slashPath ns, by simp [slashPath]⟩

theorem not_contains_cons {c : Char} {cs : Str} (h : (c :: cs).contains Separator = false) :
    c ≠ Separator ∧ cs.contains Separator = false := by
  constructor
  · intro hEQ
    simp [hEQ] at h
  · cases hx : cs.contains Separator with
    | false => rfl
    | true =>
      have : (c :: cs).contains Separator = true := by
        simp only [List.contains_cons, hx, Bool.or_true]
      rw [this] at h
      exact absurd h (by decide)

theorem split_unique (n : Str) :
    ∀ (m x y : Str), n.contains Separator = false → m.contains Separator = false →
      startsSep x → startsSep y → n ++ x = m ++ y → n = m ∧ x = y := by
  induction n with
  | nil =>
    intro m x y _ hm hx _ h
    cases m with
    | nil => exact ⟨rfl, by simpa using h⟩
    | cons d ds =>
      exfalso
      rcases hx with hx | ⟨t, hx⟩
      · rw [hx] at h
        simp at h
      · rw [hx] at h
        simp only [List.nil_append, List.cons_append, List.cons.injEq] at h
        exact (not_contains_cons hm).1 h.1.symm
  | cons c cs ih =>
    intro m x y hn hm hx hy h
    cases m with
    | nil =>
      exfalso
      rcases hy with hy | ⟨t, hy⟩
      · rw [hy] at h
        simp at h
      · rw [hy] at h
        simp only [List.nil_append, List.cons_append, List.cons.injEq] at h
        exact (not_contains_cons hn).1 h.1
    | cons d ds =>
      simp only [List.cons_append, List.cons.injEq] at h
      obtain ⟨h1, h2⟩ := ih ds x y (not_contains_cons hn).2 (not_contains_cons hm).2 hx hy h.2
      exact ⟨by rw [h.1, h1], h2⟩

theorem slashPath_inj (a : List Str) :
    ∀ b : List Str, (∀ x ∈ a, validName x = true) → (∀ x ∈ b, validName x = true) →
      slashPath a = slashPath b → a = b := by
  induction a with
  | nil =>
    intro b _ _ h
    cases b with
    | nil => rfl
    | cons m bs => simp [slashPath] at h
  | cons n as ih =>
    intro b ha hb h
    cases b with
    | nil => simp [slashPath] at h
    | cons m bs =>
      have h2 : n ++ slashPath as = m ++ slashPath bs := by
        simpa [slashPath] using h
      obtain ⟨h3, h4⟩ := split_unique n m _ _ (validName_spec (ha n (by simp))).2.1
        (validName_spec (hb m (by simp))).2.1 (slashPath_startsSep as) (slashPath_startsSep bs) h2
      rw [h3, ih bs (fun x hx => ha x (by simp [hx])) (fun x hx => hb x (by simp [hx])) h4]

mutual
theorem visits_shape (rel : List Str) :
    ∀ (n : Node), n.wf = true → ∀ v ∈ n.visits rel,
      ∃ ext, v.1 = rel ++ ext ∧ ∀ x ∈ ext, validName x = true
  | .file r, _, v, hv => by
    simp only [Node.visits, List.mem_singleton] at hv
    exact ⟨[], by simp [hv], by simp⟩
  | .unlistable cause es, _, v, hv => by
    simp only [Node.visits, List.mem_singleton] at hv
    exact ⟨[], by simp [hv], by simp⟩
  | .dir es, hwf, v, hv => by
    simp only [Node.visits, List.mem_cons] at hv
    rcases hv with hv | hv
    · exact ⟨[], by simp [hv], by simp⟩
    · obtain ⟨name, ext, _, h2, h3, h4⟩ := entries_shape rel es (by simpa [Node.wf] using hwf) v hv
      exact ⟨name :: ext, h2, by
        intro x hx
        rcases List.mem_cons.1 hx with hx | hx
        · rw [hx]; exact h3
        · exact h4 x hx⟩
theorem entries_shape (rel : List Str) :
    ∀ (es : Entries), es.wf = true → ∀ v ∈ es.visits rel,
      ∃ name ext, name ∈ es.names ∧ v.1 = rel ++ name :: ext ∧ validName name = true
        ∧ ∀ x ∈ ext, validName x = true
  | .nil, _, v, hv => by simp [Entries.visits] at hv
  | .cons name n rest, hwf, v, hv => by
    simp only [Entries.wf, Bool.and_eq_true] at hwf
    simp only [Entries.visits, List.mem_append] at hv
    rcases hv with hv | hv
    · obtain ⟨ext, h1, h2⟩ := visits_shape (rel ++ [name]) n hwf.1.2 v hv
      exact ⟨name, ext, by simp [Entries.names], by simp [h1], hwf.1.1.1, h2⟩
    · obtain ⟨nm, ext, h1, h2, h3, h4⟩ := entries_shape rel rest hwf.2 v hv
      exact ⟨nm, ext, by simp [Entries.names, h1], h2, h3, h4⟩
end

mutual
theorem visits_nodup (rel : List Str) :
    ∀ (n : Node), n.wf = true → ((n.visits rel).map Prod.fst).Nodup
  | .file r, _ => by simp [Node.visits]
  | .unlistable cause es, _ => by simp [Node.visits]
  | .dir es, hwf => by
    have hes : es.wf = true := by simpa [Node.wf] using hwf
    simp only [Node.visits, List.map_cons, List.nodup_cons]
    refine ⟨?_, entries_nodup rel es hes⟩
    intro hmem
    obtain ⟨v, hv, hrel⟩ := List.mem_map.1 hmem
    obtain ⟨name, ext, _, h2, _⟩ := entries_shape rel es hes v hv
    rw [h2] at hrel
    have := congrArg List.length hrel
    simp at this
theorem entries_nodup (rel : List Str) :
    ∀ (es : Entries), es.wf = true → ((es.visits rel).map Prod.fst).Nodup
  | .nil, _ => by simp [Entries.visits]
  | .cons name n rest, hwf => by
    simp only [Entries.wf, Bool.and_eq_true] at hwf
    simp only [Entries.visits, List.map_append]
    refine List.Nodup.append (visits_nodup (rel ++ [name]) n hwf.1.2)
      (entries_nodup rel rest hwf.2) ?_
    intro p hp1 hp2
    obtain ⟨v1, hv1, hr1⟩ := List.mem_map.1 hp1
    obtain ⟨v2, hv2, hr2⟩ := List.mem_map.1 hp2
    obtain ⟨ext1, h1, _⟩ := visits_shape (rel ++ [name]) n hwf.1.2 v1 hv1
    obtain ⟨nm, ext2, h3, h4, _⟩ := entries_shape rel rest hwf.2 v2 hv2
    rw [← hr2, h4, h1, List.append_assoc] at hr1
    have h5 := List.append_cancel_left hr1
    simp only [List.singleton_append, List.cons.injEq] at h5
    have hcontra : rest.names.contains name = true := by
      rw [h5.1]
      simpa using h3
    have hnot := hwf.1.1.2
    rw [hcontra] at hnot
    exact absurd hnot (by decide)
end

/-! ## Joining a name to an arbitrary root path -/

theorem splitSep_elems (p : Str) : ∀ e ∈ splitSep p, e.contains Separator = false := by
  induction p with
  | nil => simp [splitSep]
  | cons c cs ih =>
    rw [splitSep]
    by_cases hc : c = Separator
    · simp only [hc, if_true]
      intro e he
      rcases List.mem_cons.1 he with h | h
      · rw [h]; rfl
      · exact ih e h
    · simp only [hc, if_false]
      cases hs : splitSep cs with
      | nil => exact absurd hs (splitSep_ne_nil cs)
      | cons e0 es =>
        rw [hs] at ih
        intro e he
        simp only [List.mem_cons] at he
        rcases he with h | h
        · rw [h]
          have h0 := ih e0 (by simp)
          have hne : (Separator == c) = false := by
            simpa using fun hEQ : Separator = c => hc hEQ.symm
          simp only [List.contains_cons, hne, Bool.false_or]
          exact h0
        · exact ih e (by simp [h])

theorem dotdot_isElem : isElem ['.', '.'] := by
  refine ⟨by simp, by decide, by simp⟩

theorem cleanStep_normal (rooted : Bool) (out : List Str) (e : Str)
    (hout : normalStack rooted out) (he : e.contains Separator = false) :
    normalStack rooted (cleanStep rooted out e) := by
  unfold cleanStep
  by_cases h1 : e = []
  · simp only [h1, if_true]
    exact hout
  · by_cases h2 : e = ['.']
    · simp only [h1, h2, if_false, if_true]
      exact hout
    · by_cases h3 : e = ['.', '.']
      · simp only [h1, h2, h3, if_false, if_true]
        cases out with
        | nil =>
          cases rooted with
          | true => simp [normalStack]
          | false =>
            simp only [Bool.false_eq_true, if_false]
            exact ⟨dotdot_isElem, trivial, fun _ => ⟨rfl, Or.inl rfl⟩⟩
        | cons top below =>
          by_cases h4 : top = ['.', '.']
          · simp only [h4, if_true]
            rw [h4] at hout
            exact ⟨dotdot_isElem, hout, fun _ => ⟨(hout.2.2 rfl).1, Or.inr rfl⟩⟩
          · simp only [h4, if_false]
            exact hout.2.1
      · simp only [h1, h2, h3, if_false]
        exact ⟨⟨h1, he, h2⟩, hout, fun h => absurd h h3⟩

theorem foldl_cleanStep_normal (rooted : Bool) (es : List Str) :
    ∀ out : List Str, normalStack rooted out → (∀ e ∈ es, e.contains Separator = false) →
      normalStack rooted (es.foldl (cleanStep rooted) out) := by
  induction es with
  | nil => intro out h _; exact h
  | cons e es ih =>
    intro out h hes
    simp only [List.foldl_cons]
    exact ih _ (cleanStep_normal rooted out e h (hes e (by simp)))
      (fun x hx => hes x (by simp [hx]))

theorem cleanOut_normal (p : Str) : normalStack (p.head? = some Separator) (cleanOut p) :=
  foldl_cleanStep_normal _ _ [] trivial (splitSep_elems p)

theorem cleanStep_replay (rooted : Bool) (e : Str) (below : List Str)
    (h : normalStack rooted (e :: below)) : cleanStep rooted below e = e :: below := by
  obtain ⟨⟨h1, _, h2⟩, _, h3⟩ := h
  unfold cleanStep
  by_cases hd : e = ['.', '.']
  · obtain ⟨hr, hb⟩ := h3 hd
    simp only [h1, h2, hd, if_false, if_true]
    cases below with
    | nil => simp [hr, hd]
    | cons top rest =>
      rcases hb with hb | hb
      · exact absurd hb (by simp)
      · simp only [List.head?_cons, Option.some.injEq] at hb
        simp [hb, hd]
  · simp [h1, h2, hd]

theorem replay (rooted : Bool) (out : List Str) (h : normalStack rooted out) :
    out.reverse.foldl (cleanStep rooted) [] = out := by
  induction out with
  | nil => rfl
  | cons e below ih =>
    rw [List.reverse_cons, List.foldl_append, ih h.2.1]
    simp only [List.foldl_cons, List.foldl_nil]
    exact cleanStep_replay rooted e below h

theorem splitSep_joinWith (l : List Str) (hl : l ≠ [])
    (hs : ∀ e ∈ l, e.contains Separator = false) : splitSep (joinWith [Separator] l) = l := by
  induction l with
  | nil => exact absurd rfl hl
  | cons e es ih =>
    cases es with
    | nil => simpa [joinWith] using splitSep_name e (hs e (by simp))
    | cons e2 es2 =>
      rw [joinWith_cons_cons]
      have happ : e ++ [Separator] ++ joinWith [Separator] (e2 :: es2)
          = e ++ Separator :: joinWith [Separator] (e2 :: es2) := by simp
      rw [happ, splitSep_append, splitSep_name e (hs e (by simp)),
        ih (by simp) (fun x hx => hs x (by simp [hx]))]
      rfl

theorem joinWith_head (l : List Str) (e : Str) (c : Char) (cs : Str) (he : e = c :: cs) :
    ∃ t, joinWith [Separator] (e :: l) = c :: t := by
  cases l with
  | nil => exact ⟨cs, by simp [joinWith, he]⟩
  | cons e2 es => exact ⟨cs ++ [Separator] ++ joinWith [Separator] (e2 :: es), by
      rw [joinWith_cons_cons, he]; simp⟩

theorem normalStack_elems (rooted : Bool) (out : List Str) (h : normalStack rooted out) :
    ∀ e ∈ out, isElem e := by
  induction out with
  | nil => simp
  | cons e below ih =>
    intro x hx
    rcases List.mem_cons.1 hx with hEQ | hmem
    · rw [hEQ]; exact h.1
    · exact ih h.2.1 x hmem

theorem render_facts (rooted : Bool) (s : List Str) (hs : normalStack rooted s) (hne : s ≠ []) :
    render rooted s ≠ []
    ∧ ((render rooted s).head? = some Separator ↔ rooted = true)
    ∧ cleanOut (render rooted s) = s := by
  have helems := normalStack_elems rooted s hs
  have hrev : s.reverse ≠ [] := by simpa using hne
  have hsep : ∀ e ∈ s.reverse, e.contains Separator = false :=
    fun e he => (helems e (by simpa using he)).2.1
  cases rooted with
  | true =>
    have hr : render true s = Separator :: joinWith [Separator] s.reverse := by simp [render]
    rw [hr]
    refine ⟨by simp, by simp, ?_⟩
    unfold cleanOut
    rw [splitSep]
    simp only [if_true, List.head?_cons, List.foldl_cons, decide_True]
    rw [splitSep_joinWith _ hrev hsep]
    have h0 : cleanStep true [] [] = [] := by simp [cleanStep]
    rw [h0]
    exact replay true s hs
  | false =>
    have hr : render false s = joinWith [Separator] s.reverse := by simp [render]
    rw [hr]
    obtain ⟨e0, l0, hl0⟩ := List.exists_cons_of_ne_nil hrev
    have he0 : isElem e0 := helems e0 (by
      have : e0 ∈ s.reverse := by rw [hl0]; simp
      simpa using this)
    obtain ⟨c, cs, hc⟩ := List.exists_cons_of_ne_nil he0.1
    obtain ⟨t, ht⟩ := joinWith_head l0 e0 c cs hc
    have hcsep : c ≠ Separator := by
      have := he0.2.1
      rw [hc] at this
      exact (not_contains_cons this).1
    have hhead : (joinWith [Separator] s.reverse).head? = some c := by
      rw [hl0, ht]; rfl
    refine ⟨by rw [hl0, ht]; simp, ?_, ?_⟩
    · rw [hhead]
      simp [hcsep]
    · unfold cleanOut
      rw [hhead, splitSep_joinWith _ hrev hsep]
      have hdec : decide (some c = some Separator) = false := by simp [hcsep]
      rw [hdec]
      exact replay false s hs

theorem clean_render (rooted : Bool) (s : List Str) (hs : normalStack rooted s) (hne : s ≠ []) :
    Clean (render rooted s) = render rooted s := by
  obtain ⟨h1, h2, h3⟩ := render_facts rooted s hs hne
  unfold Clean
  simp only [h1, if_false, h3]
  cases rooted with
  | true =>
    have : (render true s).head? = some Separator := h2.2 rfl
    simp [this, render]
  | false =>
    have hnr : ¬ (render false s).head? = some Separator := fun h => by
      have := h2.1 h
      exact absurd this (by decide)
    simp only [hnr, decide_False, Bool.false_eq_true, if_false, hne]
    simp [render]

theorem validName_isElem {n : Str} (h : validName n = true) : isElem n := by
  obtain ⟨h1, h2, h3, _⟩ := validName_spec h
  exact ⟨h1, h2, h3⟩

theorem normalStack_push (rooted : Bool) (out : List Str) (h : normalStack rooted out) {n : Str}
    (hn : validName n = true) : normalStack rooted (n :: out) :=
  ⟨validName_isElem hn, h, fun hd => absurd hd (validName_spec hn).2.2.2⟩

theorem render_push (rooted : Bool) (out : List Str) (n : Str) :
    render rooted (n :: out)
      = (if out = [] then (if rooted then [Separator] else [])
          else render rooted out ++ [Separator]) ++ n := by
  cases out with
  | nil => cases rooted <;> simp [render, joinWith]
  | cons e es =>
    have hne : (e :: es).reverse ≠ [] := by simp
    cases rooted with
    | true =>
      simp only [render, if_true, List.reverse_cons n (e :: es)]
      rw [joinWith_snoc _ _ hne]
      simp
    | false =>
      simp only [render, Bool.false_eq_true, if_false, List.reverse_cons n (e :: es)]
      rw [joinWith_snoc _ _ hne]
      simp

theorem clean_name {n : Str} (hn : validName n = true) : Clean n = n := by
  obtain ⟨h1, h2, _, _⟩ := validName_spec hn
  obtain ⟨c, cs, hc⟩ := List.exists_cons_of_ne_nil h1
  have hcsep : c ≠ Separator := by
    rw [hc] at h2
    exact (not_contains_cons h2).1
  have hhead : ¬ n.head? = some Separator := by
    rw [hc]; simp [hcsep]
  have hout : cleanOut n = [n] := by
    unfold cleanOut
    rw [splitSep_name n h2]
    simp only [List.foldl_cons, List.foldl_nil]
    exact cleanStep_name _ _ hn
  unfold Clean
  simp [h1, hhead, hout, joinWith]

theorem join_general (fpath : Str) {n : Str} (hn : validName n = true) :
    Join fpath n = joinBase fpath ++ n ∧ cleanRoot (Join fpath n) := by
  obtain ⟨h1, h2, h3, h4⟩ := validName_spec hn
  have hnotdot : ∀ b : Str, b ++ n ≠ ['.'] := by
    intro b hb
    cases b with
    | nil => exact h3 (by simpa using hb)
    | cons c cs =>
      have hl := congrArg List.length hb
      simp only [List.cons_append, List.length_cons, List.length_append, List.length_nil] at hl
      have : n.length = 0 := by omega
      exact h1 (List.length_eq_zero.1 this)
  have hnotroot : ∀ b : Str, b ++ n ≠ ['/'] := by
    intro b hb
    cases b with
    | nil =>
      have hn2 : n = ['/'] := by simpa using hb
      rw [hn2] at h2
      exact absurd h2 (by decide)
    | cons c cs =>
      have hl := congrArg List.length hb
      simp only [List.cons_append, List.length_cons, List.length_append, List.length_nil] at hl
      have : n.length = 0 := by omega
      exact h1 (List.length_eq_zero.1 this)
  by_cases hp : fpath = []
  · have hj : Join fpath n = n := by simp [Join, hp, h1, clean_name hn]
    have hb : joinBase fpath = [] := by simp [joinBase, hp]
    rw [hj, hb]
    exact ⟨rfl, clean_name hn, h3, by simpa using hnotroot []⟩
  · have hh : (fpath ++ Separator :: n).head? = fpath.head? := by
      cases fpath with
      | nil => exact absurd rfl hp
      | cons c cs => rfl
    have hne : fpath ++ Separator :: n ≠ [] := by simp
    have hstack := normalStack_push _ _ (cleanOut_normal fpath) hn
    have hj : Join fpath n = render (fpath.head? = some Separator) (n :: cleanOut fpath) := by
      unfold Join Clean
      simp only [hp, hne, if_false, hh, cleanOut_join fpath hp hn, ne_eq, not_false_eq_true,
        if_true]
      by_cases hr : fpath.head? = some Separator
      · simp [hr, render]
      · simp [hr, render]
    have hb : render (fpath.head? = some Separator) (n :: cleanOut fpath)
        = joinBase fpath ++ n := by
      rw [render_push]
      unfold joinBase
      by_cases ho : cleanOut fpath = []
      · simp [hp, ho]
      · simp [hp, ho]
    refine ⟨by rw [hj, hb], ?_, ?_, ?_⟩
    · rw [hj]
      exact clean_render _ _ hstack (by simp)
    · rw [hj, hb]
      exact hnotdot _
    · rw [hj, hb]
      exact hnotroot _

theorem relPath_cons (n : Str) (ns : List Str) : relPath (n :: ns) = n ++ slashPath ns := by
  have h := slashPath_eq_relPath n ns
  have h2 : slashPath (n :: ns) = '/' :: (n ++ slashPath ns) := by
    simp [slashPath, Separator]
  rw [h2] at h
  exact (List.cons.inj h).2.symm

/-- The walk path of an entry below the root, for an arbitrary root path. -/
theorem walkPath_general (fpath : Str) (n : Str) (ns : List Str)
    (hrel : ∀ x ∈ n :: ns, validName x = true) :
    walkPath fpath (n :: ns) = joinBase fpath ++ relPath (n :: ns) := by
  obtain ⟨hj, hc⟩ := join_general fpath (hrel n (by simp))
  have h := walkPath_cleanRoot ns (fun x hx => hrel x (by simp [hx])) hc
  simp only [walkPath, List.foldl_cons] at h ⊢
  rw [h, hj, relPath_cons, List.append_assoc]

theorem walkPath_inj (fpath : Str) (a b : List Str) (ha : a ≠ []) (hb : b ≠ [])
    (hva : ∀ x ∈ a, validName x = true) (hvb : ∀ x ∈ b, validName x = true)
    (h : walkPath fpath a = walkPath fpath b) : a = b := by
  obtain ⟨n, ns, rfl⟩ := List.exists_cons_of_ne_nil ha
  obtain ⟨m, ms, rfl⟩ := List.exists_cons_of_ne_nil hb
  rw [walkPath_general fpath n ns hva, walkPath_general fpath m ms hvb] at h
  have h2 := List.append_cancel_left h
  apply slashPath_inj _ _ hva hvb
  rw [slashPath_eq_relPath, slashPath_eq_relPath, h2]

/-! ## The map built by the walk -/

theorem set_of_not_mem (m : FileSet) (k : Str) (v : List Byte) (h : k ∉ m.keys) :
    m.set k v = m ++ [(k, v)] := by
  induction m with
  | nil => rfl
  | cons e es ih =>
    obtain ⟨k1, v1⟩ := e
    simp only [FileSet.keys, List.map_cons, List.mem_cons, not_or] at h
    have hne : k1 ≠ k := fun hEQ => h.1 hEQ.symm
    simp only [FileSet.set, hne, if_false, List.cons_append, List.cons.injEq, true_and]
    exact ih h.2

theorem foldl_set_nodup (l : FileSet) :
    ∀ m : FileSet, (m.keys ++ l.keys).Nodup →
      l.foldl (fun acc e => acc.set e.1 e.2) m = m ++ l := by
  induction l with
  | nil => intro m _; simp
  | cons e es ih =>
    intro m h
    have hk : e.1 ∉ m.keys := by
      intro hmem
      have := (List.nodup_append.1 h).2.2
      exact this hmem (by simp [FileSet.keys])
    simp only [List.foldl_cons]
    rw [set_of_not_mem m e.1 e.2 hk, ih]
    · simp
    · have : (m ++ [(e.1, e.2)]).keys ++ FileSet.keys es = m.keys ++ FileSet.keys (e :: es) := by
        simp [FileSet.keys]
      rw [this]
      exact h

theorem lookup_of_mem_nodup (m : FileSet) (h : m.keys.Nodup) (k : Str) (v : List Byte)
    (hm : (k, v) ∈ m) : m.lookup k = some v := by
  induction m with
  | nil => simp at hm
  | cons e es ih =>
    obtain ⟨k1, v1⟩ := e
    simp only [FileSet.keys, List.map_cons, List.nodup_cons] at h
    rcases List.mem_cons.1 hm with hEQ | hmem
    · simp only [Prod.mk.injEq] at hEQ
      simp [List.lookup, hEQ.1, hEQ.2]
    · have hne : k ≠ k1 := by
        intro hEQ
        exact h.1 (List.mem_map.2 ⟨(k, v), hmem, by simp [hEQ]⟩)
      have hb : (k == k1) = false := by simpa using hne
      simp only [List.lookup, hb]
      exact ih h.2 hmem

theorem contents_sublist (vs : List (List Str × Option ReadOutcome)) :
    ((contentsOf (filesOf vs)).map Prod.fst).Sublist (vs.map Prod.fst) := by
  induction vs with
  | nil => simp [filesOf, contentsOf]
  | cons v vs ih =>
    obtain ⟨rel, k⟩ := v
    cases k with
    | none =>
      have hf : filesOf ((rel, none) :: vs) = filesOf vs := by simp [filesOf]
      rw [hf]
      exact List.Sublist.cons _ ih
    | some r =>
      have hf : filesOf ((rel, some r) :: vs) = (rel, r) :: filesOf vs := by simp [filesOf]
      rw [hf]
      cases r with
      | ok c =>
        have hc : contentsOf ((rel, .ok c) :: filesOf vs) = (rel, c) :: contentsOf (filesOf vs) := by
          simp [contentsOf]
        rw [hc]
        exact List.Sublist.cons₂ _ ih
      | fail op cause =>
        have hc : contentsOf ((rel, .fail op cause) :: filesOf vs) = contentsOf (filesOf vs) := by
          simp [contentsOf]
        rw [hc]
        exact List.Sublist.cons _ ih

theorem contents_names_valid (tree : Node) (hwf : tree.wf = true) :
    ∀ f ∈ tree.contents, ∀ x ∈ f.1, validName x = true := by
  intro f hf x hx
  have hsub := contents_sublist (tree.visits [])
  have hmem : f.1 ∈ (tree.visits []).map Prod.fst :=
    hsub.subset (List.mem_map.2 ⟨f, hf, rfl⟩)
  obtain ⟨v, hv, hv1⟩ := List.mem_map.1 hmem
  obtain ⟨ext, h1, h2⟩ := visits_shape [] tree hwf v hv
  rw [← hv1, h1] at hx
  exact h2 x (by simpa using hx)

theorem contents_keys_nodup (tree : Node) (hwf : tree.wf = true) :
    (tree.contents.map (fun f => slashPath f.1)).Nodup := by
  have hsub := contents_sublist (tree.visits [])
  have hnd : (tree.contents.map Prod.fst).Nodup := (visits_nodup [] tree hwf).sublist hsub
  have hmap : tree.contents.map (fun f => slashPath f.1)
      = (tree.contents.map Prod.fst).map slashPath := by simp
  rw [hmap]
  refine List.Nodup.map_on ?_ hnd
  intro a ha b hb hab
  obtain ⟨fa, hfa, hfa1⟩ := List.mem_map.1 ha
  obtain ⟨fb, hfb, hfb1⟩ := List.mem_map.1 hb
  refine slashPath_inj a b ?_ ?_ hab
  · rw [← hfa1]; exact contents_names_valid tree hwf fa hfa
  · rw [← hfb1]; exact contents_names_valid tree hwf fb hfb

theorem contentsOf_length (fs : List (List Str × ReadOutcome))
    (h : ∀ f ∈ fs, ∃ c, f.2 = .ok c) : (contentsOf fs).length = fs.length := by
  induction fs with
  | nil => rfl
  | cons f fs ih =>
    obtain ⟨rel, r⟩ := f
    obtain ⟨c, hc⟩ := h (rel, r) (by simp)
    simp only at hc
    subst hc
    have : contentsOf ((rel, .ok c) :: fs) = (rel, c) :: contentsOf fs := by simp [contentsOf]
    rw [this, List.length_cons, List.length_cons, ih (fun f hf => h f (by simp [hf]))]

/-- The walk of a well-formed tree whose files can all be read, from a cleaned
root: it ends without error, the map holds the content of every file under
the key made of a separator and the name for every step from the root, the keys
are pairwise different, every file has been read once, and no file has been
created. -/
theorem collect_readable (fpath : Str) (tree : Node) (hroot : cleanRoot fpath)
    (hwf : tree.wf = true) (hr : ∀ f ∈ tree.files, ∃ c, f.2 = .ok c) :
    ∃ st, collect fpath tree = (st, none)
      ∧ st.configs = tree.contents.map (fun f => (slashPath f.1, f.2))
      ∧ st.configs.keys.Nodup
      ∧ readPaths st.log = tree.files.map (fun f => walkPath fpath f.1)
      ∧ createsFile st.log = false := by
  obtain ⟨st, h1, h2, h3, h4⟩ := runVisits_readable fpath (tree.visits [])
    { configs := [], log := [.stat fpath, .walk fpath] } hr
  have hkeys : tree.contents.map (fun f => (walkKey fpath f.1, f.2))
      = tree.contents.map (fun f => (slashPath f.1, f.2)) := by
    apply List.map_congr_left
    intro f hf
    rw [walkKey_cleanRoot hroot f.1 (contents_names_valid tree hwf f hf)]
  have hcfg : st.configs = tree.contents.map (fun f => (slashPath f.1, f.2)) := by
    rw [h2]
    have hfold : assignAll fpath [] (contentsOf (filesOf (tree.visits [])))
        = (tree.contents.map (fun f => (walkKey fpath f.1, f.2))).foldl
            (fun (acc : FileSet) e => FileSet.set acc e.1 e.2) ([] : FileSet) := by
      simp [assignAll, Node.contents, Node.files, List.foldl_map]
    rw [hfold, hkeys, foldl_set_nodup]
    · simp
    · simpa [FileSet.keys, Function.comp_def] using contents_keys_nodup tree hwf
  refine ⟨st, ?_, hcfg, ?_, ?_, ?_⟩
  · rw [collect, Walk_eq_runVisits]
    exact h1
  · rw [hcfg]
    simpa [FileSet.keys, Function.comp_def] using contents_keys_nodup tree hwf
  · rw [h3]
    simp [readPaths, Node.files]
  · rw [h4]
    simp [createsFile]

theorem isOk_iff (r : ReadOutcome) : r.isOk = true ↔ ∃ c, r = .ok c := by
  cases r with
  | ok c => simp [ReadOutcome.isOk]
  | fail op cause => simp [ReadOutcome.isOk]

theorem mem_contents_iff (tree : Node) (rel : List Str) (c : List Byte) :
    (rel, c) ∈ tree.contents ↔ (rel, ReadOutcome.ok c) ∈ tree.files := by
  simp only [Node.contents, contentsOf, List.mem_filterMap]
  constructor
  · rintro ⟨⟨rel1, r⟩, hmem, hr⟩
    cases r with
    | ok c1 =>
      simp only [Option.some.injEq, Prod.mk.injEq] at hr
      rw [← hr.1, ← hr.2]
      exact hmem
    | fail op cause => simp at hr
  · intro h
    exact ⟨(rel, .ok c), h, rfl⟩

/-! ## C3 and C4: the keys and the entries of the map -/

/-- C3, as stated, fails: for the configured root `../../default-e2e-test-data/testcases`
and the tree holding `a.json` and `sub/b.txt`, the files are stored under the keys
`/a.json` and `/sub/b.txt`, with a leading separator; nothing is stored under the
relative path `a.json`. -/
theorem scenario_keys_have_leading_separator :
    (["a.json".toList], [0x7B, 0x7D]) ∈ scenarioTree.contents
    ∧ relPath ["a.json".toList] = "a.json".toList
    ∧ (collect embedTestCaseFolder scenarioTree).1.configs
        = [("/a.json".toList, [0x7B, 0x7D]), ("/sub/b.txt".toList, [0x68, 0x69])]
    ∧ (collect embedTestCaseFolder scenarioTree).1.configs.lookup (relPath ["a.json".toList])
        = none := by
  decide

/-- C3, amended: for a root path `D` in cleaned form (other than `.` and `/`),
a well-formed tree whose files can all be read and a file reached from the root by
the names `rel` (at least one), the path the walker passes is `D`, a separator
and the relative path of the file; the key `ToSlash(TrimPrefix(walkPath, D))` is
the relative path, with forward slashes, after one leading separator; and the
content of the file is stored in the map under that key. -/
theorem walk_key_leading_separator (fpath : Str) (tree : Node) (hroot : cleanRoot fpath)
    (hwf : tree.wf = true) (hr : tree.readable)
    (rel : List Str) (c : List Byte) (hmem : (rel, c) ∈ tree.contents) (hne : rel ≠ []) :
    walkPath fpath rel = fpath ++ '/' :: relPath rel
    ∧ ToSlash (TrimPrefix (walkPath fpath rel) fpath) = '/' :: relPath rel
    ∧ (collect fpath tree).1.configs.lookup ('/' :: relPath rel) = some c := by
  have hvalid := contents_names_valid tree hwf (rel, c) hmem
  obtain ⟨st, h1, h2, h3, _⟩ := collect_readable fpath tree hroot hwf
    (fun f hf => (isOk_iff f.2).1 (hr f hf))
  obtain ⟨n, ns, rfl⟩ := List.exists_cons_of_ne_nil hne
  have hkey : walkKey fpath (n :: ns) = '/' :: relPath (n :: ns) := by
    rw [walkKey_cleanRoot hroot _ hvalid, slashPath_eq_relPath]
  refine ⟨?_, hkey, ?_⟩
  · rw [walkPath_cleanRoot _ hvalid hroot, slashPath_eq_relPath]
  · rw [h1]
    apply lookup_of_mem_nodup _ h3
    rw [h2, ← slashPath_eq_relPath]
    exact List.mem_map.2 ⟨(n :: ns, c), hmem, rfl⟩

/-- The amended C3 at the scenario of the specification: `sub/b.txt` below the
configured test-case folder is stored under `/sub/b.txt`. -/
theorem walk_key_leading_separator_witness :
    walkPath embedTestCaseFolder ["sub".toList, "b.txt".toList]
        = embedTestCaseFolder ++ '/' :: relPath ["sub".toList, "b.txt".toList]
    ∧ ToSlash (TrimPrefix (walkPath embedTestCaseFolder ["sub".toList, "b.txt".toList])
        embedTestCaseFolder) = '/' :: relPath ["sub".toList, "b.txt".toList]
    ∧ (collect embedTestCaseFolder scenarioTree).1.configs.lookup
        ('/' :: relPath ["sub".toList, "b.txt".toList]) = some [0x68, 0x69] :=
  walk_key_leading_separator embedTestCaseFolder scenarioTree (by decide) (by decide)
    (by decide) ["sub".toList, "b.txt".toList] [0x68, 0x69] (by decide) (by decide)

mutual
theorem entries_eq_visits (rel : List Str) :
    ∀ (n : Node), n.listable = true → n.entries rel = n.visits rel
  | .file r, _ => by simp [Node.entries, Node.visits]
  | .unlistable cause es, h => by simp [Node.listable] at h
  | .dir es, h => by
    simp only [Node.entries, Node.visits]
    rw [entries_eq_visits_list rel es (by simpa [Node.listable] using h)]
theorem entries_eq_visits_list (rel : List Str) :
    ∀ (es : Entries), es.listable = true → es.entries rel = es.visits rel
  | .nil, _ => by simp [Entries.entries, Entries.visits]
  | .cons name n rest, h => by
    simp only [Entries.listable, Bool.and_eq_true] at h
    simp only [Entries.entries, Entries.visits]
    rw [entries_eq_visits (rel ++ [name]) n h.1, entries_eq_visits_list rel rest h.2]
end

theorem allFiles_eq_files (tree : Node) (h : tree.listable = true) : tree.allFiles = tree.files := by
  simp [Node.allFiles, Node.files, entries_eq_visits [] tree h]

theorem files_sublist (vs : List (List Str × Option ReadOutcome)) :
    ((filesOf vs).map Prod.fst).Sublist (vs.map Prod.fst) := by
  induction vs with
  | nil => simp [filesOf]
  | cons v vs ih =>
    obtain ⟨rel, k⟩ := v
    cases k with
    | none =>
      have hf : filesOf ((rel, none) :: vs) = filesOf vs := by simp [filesOf]
      rw [hf]
      exact List.Sublist.cons _ ih
    | some r =>
      have hf : filesOf ((rel, some r) :: vs) = (rel, r) :: filesOf vs := by simp [filesOf]
      rw [hf]
      exact List.Sublist.cons₂ _ ih

theorem files_names_valid (tree : Node) (hwf : tree.wf = true) :
    ∀ f ∈ tree.files, ∀ x ∈ f.1, validName x = true := by
  intro f hf x hx
  have hmem : f.1 ∈ (tree.visits []).map Prod.fst :=
    (files_sublist (tree.visits [])).subset (List.mem_map.2 ⟨f, hf, rfl⟩)
  obtain ⟨v, hv, hv1⟩ := List.mem_map.1 hmem
  obtain ⟨ext, h1, h2⟩ := visits_shape [] tree hwf v hv
  rw [← hv1, h1] at hx
  exact h2 x (by simpa using hx)

theorem dir_files_ne_nil (es : Entries) (hwf : es.wf = true) :
    ∀ f ∈ (Node.dir es).files, f.1 ≠ [] := by
  intro f hf
  have hfiles : (Node.dir es).files = filesOf (es.visits []) := by
    simp [Node.files, Node.visits, filesOf]
  rw [hfiles] at hf
  have hmem : f.1 ∈ (es.visits []).map Prod.fst :=
    (files_sublist (es.visits [])).subset (List.mem_map.2 ⟨f, hf, rfl⟩)
  obtain ⟨v, hv, hv1⟩ := List.mem_map.1 hmem
  obtain ⟨name, ext, _, h2, _⟩ := entries_shape [] es hwf v hv
  rw [← hv1, h2]
  simp

theorem hasPrefix_split {s pre : Str} (h : HasPrefix s pre = true) :
    s = pre ++ TrimPrefix s pre := by
  have hp : pre <+: s := List.isPrefixOf_iff_prefix.1 h
  obtain ⟨t, ht⟩ := hp
  rw [← ht, trimPrefix_append]

theorem trimPrefix_of_not {s pre : Str} (h : HasPrefix s pre = false) : TrimPrefix s pre = s := by
  simp [TrimPrefix, h]

/-- When the root path is a prefix of the walk path of every file the walk finds,
or of none, the keys of the files are pairwise different. -/
theorem keys_nodup_uniform (fpath : Str) (tree : Node) (hwf : tree.wf = true)
    (hu : (∀ f ∈ tree.files, HasPrefix (walkPath fpath f.1) fpath = true)
      ∨ (∀ f ∈ tree.files, HasPrefix (walkPath fpath f.1) fpath = false)) :
    (tree.contents.map (fun f => walkKey fpath f.1)).Nodup := by
  cases tree with
  | file r =>
    cases r <;> simp [Node.contents, Node.files, Node.visits, filesOf, contentsOf]
  | unlistable cause es =>
    simp [Node.contents, Node.files, Node.visits, filesOf, contentsOf]
  | dir es =>
    have hes : es.wf = true := by simpa [Node.wf] using hwf
    have hsub := contents_sublist ((Node.dir es).visits [])
    have hnd : ((Node.dir es).contents.map Prod.fst).Nodup :=
      (visits_nodup [] (Node.dir es) hwf).sublist hsub
    have hmap : (Node.dir es).contents.map (fun f => walkKey fpath f.1)
        = ((Node.dir es).contents.map Prod.fst).map (walkKey fpath) := by simp
    rw [hmap]
    refine List.Nodup.map_on ?_ hnd
    intro a ha b hb hab
    obtain ⟨fa, hfa, hfa1⟩ := List.mem_map.1 ha
    obtain ⟨fb, hfb, hfb1⟩ := List.mem_map.1 hb
    have hfa2 : (fa.1, ReadOutcome.ok fa.2) ∈ (Node.dir es).files :=
      (mem_contents_iff _ fa.1 fa.2).1 hfa
    have hfb2 : (fb.1, ReadOutcome.ok fb.2) ∈ (Node.dir es).files :=
      (mem_contents_iff _ fb.1 fb.2).1 hfb
    have hpath : walkPath fpath a = walkPath fpath b := by
      simp only [walkKey, toSlash_eq] at hab
      rcases hu with hu | hu
      · have h1 := hasPrefix_split (hu _ hfa2)
        have h2 := hasPrefix_split (hu _ hfb2)
        simp only [hfa1, hfb1] at h1 h2
        rw [h1, h2, hab]
      · have h1 := trimPrefix_of_not (hu _ hfa2)
        have h2 := trimPrefix_of_not (hu _ hfb2)
        simp only [hfa1, hfb1] at h1 h2
        rw [← h1, ← h2, hab]
    refine walkPath_inj fpath a b ?_ ?_ ?_ ?_ hpath
    · rw [← hfa1]; exact dir_files_ne_nil es hes _ hfa2
    · rw [← hfb1]; exact dir_files_ne_nil es hes _ hfb2
    · rw [← hfa1]; exact contents_names_valid _ hwf fa hfa
    · rw [← hfb1]; exact contents_names_valid _ hwf fb hfb

/-- The walk of a tree whose files can all be read and have pairwise different
keys: it ends without error and the map holds the content of every file under
the key of the file, in walk order. -/
theorem collect_of_nodup (fpath : Str) (tree : Node)
    (hr : ∀ f ∈ tree.files, ∃ c, f.2 = .ok c)
    (hk : (tree.contents.map (fun f => walkKey fpath f.1)).Nodup) :
    ∃ st, collect fpath tree = (st, none)
      ∧ st.configs = tree.contents.map (fun f => (walkKey fpath f.1, f.2)) := by
  obtain ⟨st, h1, h2, _, _⟩ := runVisits_readable fpath (tree.visits [])
    { configs := [], log := [.stat fpath, .walk fpath] } hr
  refine ⟨st, ?_, ?_⟩
  · rw [collect, Walk_eq_runVisits]
    exact h1
  · rw [h2]
    have hfold : assignAll fpath [] (contentsOf (filesOf (tree.visits [])))
        = (tree.contents.map (fun f => (walkKey fpath f.1, f.2))).foldl
            (fun (acc : FileSet) e => FileSet.set acc e.1 e.2) ([] : FileSet) := by
      simp [assignAll, Node.contents, Node.files, List.foldl_map]
    rw [hfold, foldl_set_nodup]
    · simp
    · simpa [FileSet.keys, Function.comp_def] using hk

theorem joinBase_clean {fpath : Str} (hc : Clean fpath = fpath) (hd : fpath ≠ ['.']) :
    ∃ t, joinBase fpath = fpath ++ t := by
  have hp : fpath ≠ [] := by
    intro h
    rw [h] at hc
    simp [Clean] at hc
  unfold joinBase
  by_cases ho : cleanOut fpath = []
  · simp only [hp, ho, if_false, if_true]
    unfold Clean at hc
    simp only [hp, if_false, ho, List.reverse_nil, joinWith] at hc
    by_cases hr : fpath.head? = some Separator
    · simp only [hr, decide_True, if_true] at hc ⊢
      exact ⟨[], by rw [← hc]; simp⟩
    · simp only [hr, decide_False, Bool.false_eq_true, if_false, if_true] at hc
      exact absurd hc.symm hd
  · simp only [hp, ho, if_false]
    refine ⟨[Separator], ?_⟩
    congr 1
    unfold Clean at hc
    simp only [hp, if_false, ho] at hc
    by_cases hr : fpath.head? = some Separator
    · simp only [hr, decide_True, if_true] at hc ⊢
      simpa [render] using hc
    · simp only [hr, decide_False, Bool.false_eq_true, if_false] at hc ⊢
      simpa [render] using hc

/-- A root path in cleaned form other than `.` is a prefix of the walk path of
every file of a well-formed tree. -/
theorem uniformRoot_of_clean (fpath : Str) (tree : Node) (hwf : tree.wf = true)
    (hlist : tree.listable = true) (hc : Clean fpath = fpath) (hd : fpath ≠ ['.']) :
    uniformRoot fpath tree := by
  left
  intro f hf
  rw [allFiles_eq_files tree hlist] at hf
  have hvalid := files_names_valid tree hwf f hf
  obtain ⟨t, ht⟩ := joinBase_clean hc hd
  cases hrel : f.1 with
  | nil => simp [walkPath, HasPrefix]
  | cons n ns =>
    rw [hrel] at hvalid
    rw [walkPath_general fpath n ns hvalid, ht]
    simp [HasPrefix, List.append_assoc]

/-- C4, as stated, fails. Walked from the configured test-case folder, the
well-formed tree `a.json`, `locked/secret.txt`, in which the directory `locked`
cannot be listed, has two entries that are not directories and every read the
walk makes succeeds, yet the walk ends without error with a map of one entry:
the file below `locked` is left out. And walked from the root path `.`, the
well-formed tree with the two readable files `.a` and `a`, whose every directory
can be listed, gives a map with one entry only, keyed `a`: the content of `.a`
is lost. -/
theorem map_misses_files :
    (lockedTree.wf = true ∧ lockedTree.readable ∧ lockedTree.fileCount = 2
      ∧ (collect embedTestCaseFolder lockedTree).2 = none
      ∧ (collect embedTestCaseFolder lockedTree).1.configs = [("/a.json".toList, [0x7B, 0x7D])])
    ∧ (dotTree.wf = true ∧ dotTree.listable = true ∧ dotTree.readable ∧ dotTree.fileCount = 2
      ∧ (collect ".".toList dotTree).2 = none
      ∧ (collect ".".toList dotTree).1.configs = [("a".toList, [2])]) := by
  decide

/-- C4, amended: for a well-formed tree in which every directory can be listed
and every file read succeeds, walked from a root path that is a textual prefix of
the walk path of every file or of none, the walk ends without error and the map
has exactly one entry per entry of the tree that is not a directory: its entries
are the contents of the files, in walk order, each under the key of its file;
the keys are pairwise different; the number of entries is the number of files; an
entry of the map always comes from a file, never from a directory; and an empty
root directory gives the empty map. The condition on the root path holds for
every root path in cleaned form other than `.`. -/
theorem collect_one_entry_per_file (fpath : Str) (tree : Node)
    (hwf : tree.wf = true) (hlist : tree.listable = true) (hr : tree.readable)
    (hroot : uniformRoot fpath tree) :
    (collect fpath tree).2 = none
    ∧ (collect fpath tree).1.configs
        = (contentsOf tree.allFiles).map (fun f => (walkKey fpath f.1, f.2))
    ∧ (collect fpath tree).1.configs.keys.Nodup
    ∧ (collect fpath tree).1.configs.length = tree.fileCount
    ∧ (∀ k c, (k, c) ∈ (collect fpath tree).1.configs
        ↔ ∃ rel, (rel, ReadOutcome.ok c) ∈ tree.allFiles ∧ k = walkKey fpath rel)
    ∧ (collect fpath (.dir .nil)).1.configs = []
    ∧ (∀ root : Str, Clean root = root → root ≠ ['.'] → uniformRoot root tree) := by
  have hall := allFiles_eq_files tree hlist
  have hr1 : ∀ f ∈ tree.files, ∃ c, f.2 = .ok c := fun f hf => (isOk_iff f.2).1 (hr f hf)
  have hu : (∀ f ∈ tree.files, HasPrefix (walkPath fpath f.1) fpath = true)
      ∨ (∀ f ∈ tree.files, HasPrefix (walkPath fpath f.1) fpath = false) := by
    unfold uniformRoot at hroot
    rw [hall] at hroot
    exact hroot
  have hk := keys_nodup_uniform fpath tree hwf hu
  obtain ⟨st, h1, h2⟩ := collect_of_nodup fpath tree hr1 hk
  have hcont : contentsOf tree.allFiles = tree.contents := by rw [hall, Node.contents]
  rw [h1, hcont]
  refine ⟨rfl, h2, ?_, ?_, ?_, ?_, fun root hc hd => uniformRoot_of_clean root tree hwf hlist hc hd⟩
  · rw [h2]
    simpa [FileSet.keys, Function.comp_def] using hk
  · rw [h2, List.length_map, Node.contents, contentsOf_length _ hr1, Node.fileCount, hall]
  · intro k c
    simp only [h2, hall, List.mem_map, Prod.mk.injEq]
    constructor
    · rintro ⟨⟨rel, c1⟩, hmem, hk2, hc⟩
      simp only at hk2 hc
      subst hc
      exact ⟨rel, (mem_contents_iff tree rel c1).1 hmem, hk2.symm⟩
    · rintro ⟨rel, hmem, hk2⟩
      exact ⟨(rel, c), (mem_contents_iff tree rel c).2 hmem, hk2.symm, rfl⟩
  · simp [collect, Walk, walk, walkFn_dir, walkEntries]

/-- The amended C4 at the scenario of the specification. -/
theorem collect_one_entry_per_file_witness :
    (collect embedTestCaseFolder scenarioTree).2 = none
    ∧ (collect embedTestCaseFolder scenarioTree).1.configs
        = (contentsOf scenarioTree.allFiles).map
            (fun f => (walkKey embedTestCaseFolder f.1, f.2))
    ∧ (collect embedTestCaseFolder scenarioTree).1.configs.keys.Nodup
    ∧ (collect embedTestCaseFolder scenarioTree).1.configs.length = scenarioTree.fileCount
    ∧ (∀ k c, (k, c) ∈ (collect embedTestCaseFolder scenarioTree).1.configs
        ↔ ∃ rel, (rel, ReadOutcome.ok c) ∈ scenarioTree.allFiles
            ∧ k = walkKey embedTestCaseFolder rel)
    ∧ (collect embedTestCaseFolder (.dir .nil)).1.configs = []
    ∧ (∀ root : Str, Clean root = root → root ≠ ['.'] → uniformRoot root scenarioTree) :=
  collect_one_entry_per_file embedTestCaseFolder scenarioTree (by decide) (by decide) (by decide)
    (by decide)

/-! ## The driver -/

theorem generateBlob_missing (env : Env) (fpath bpath : Str) (tmpl : executor)
    (hroot : env.root = .notExist) :
    generateBlob env fpath bpath tmpl
      = { events := [.stat fpath, .fatal "Static directory does not exists!".toList],
          blob := env.blob,
          outcome := .fatal .stat "Static directory does not exists!".toList } := by
  simp [generateBlob, hroot, Run.die]

theorem generateBlob_walk_error (env : Env) (fpath bpath : Str) (tmpl : executor) (tree : Node)
    (st : WalkState) (err : PathError) (hroot : env.root = .present tree)
    (hwalk : collect fpath tree = (st, some err)) :
    generateBlob env fpath bpath tmpl
      = Run.die st.log env.blob .walk
          ("Error walking through embed directory:".toList ++ err.Error) := by
  simp [generateBlob, hroot, hwalk]

theorem generateBlob_create_error (env : Env) (fpath bpath : Str) (tmpl : executor) (tree : Node)
    (st : WalkState) (e : Str) (hroot : env.root = .present tree)
    (hwalk : collect fpath tree = (st, none)) (hc : env.createErr = some e) :
    generateBlob env fpath bpath tmpl
      = Run.die (st.log ++ [.create bpath]) env.blob .create
          ("Error creating blob file:".toList ++ e) := by
  simp only [generateBlob, hroot, hwalk, hc]

theorem generateBlob_execute_error (env : Env) (fpath bpath : Str) (tmpl : executor) (tree : Node)
    (st : WalkState) (text e : Str) (hroot : env.root = .present tree)
    (hwalk : collect fpath tree = (st, none)) (hc : env.createErr = none)
    (hx : tmpl st.configs = (text, some e)) :
    generateBlob env fpath bpath tmpl
      = Run.die (st.log ++ [.create bpath] ++ [.execute]) (some []) .execute
          ("Error executing template".toList ++ e) := by
  simp only [generateBlob, hroot, hwalk, hc, hx]

theorem generateBlob_format_error (env : Env) (fpath bpath : Str) (tmpl : executor) (tree : Node)
    (st : WalkState) (text e : Str) (hroot : env.root = .present tree)
    (hwalk : collect fpath tree = (st, none)) (hc : env.createErr = none)
    (hx : tmpl st.configs = (text, none)) (hf : env.formatSource text = .error e) :
    generateBlob env fpath bpath tmpl
      = Run.die (st.log ++ [.create bpath] ++ [.execute] ++ [.formatSource]) (some []) .format
          ("Error formatting generated code".toList ++ e) := by
  simp only [generateBlob, hroot, hwalk, hc, hx, hf]

theorem generateBlob_write_error (env : Env) (fpath bpath : Str) (tmpl : executor) (tree : Node)
    (st : WalkState) (text data e : Str) (left : Option Str) (hroot : env.root = .present tree)
    (hwalk : collect fpath tree = (st, none)) (hc : env.createErr = none)
    (hx : tmpl st.configs = (text, none)) (hf : env.formatSource text = .ok data)
    (hw : env.writeErr = some (e, left)) :
    generateBlob env fpath bpath tmpl
      = Run.die (st.log ++ [.create bpath] ++ [.execute] ++ [.formatSource] ++ [.writeFile bpath])
          left .write ("Error writing blob file".toList ++ e) := by
  simp only [generateBlob, hroot, hwalk, hc, hx, hf, hw]

theorem generateBlob_ok (env : Env) (fpath bpath : Str) (tmpl : executor) (tree : Node)
    (st : WalkState) (text data : Str) (hroot : env.root = .present tree)
    (hwalk : collect fpath tree = (st, none)) (hc : env.createErr = none)
    (hx : tmpl st.configs = (text, none)) (hf : env.formatSource text = .ok data)
    (hw : env.writeErr = none) :
    generateBlob env fpath bpath tmpl
      = { events := st.log ++ [.create bpath] ++ [.execute] ++ [.formatSource]
            ++ [.writeFile bpath],
          blob := some data, outcome := .returned } := by
  simp only [generateBlob, hroot, hwalk, hc, hx, hf, hw]

theorem generateBlob_noInfo (env : Env) (fpath bpath : Str) (tmpl : executor) (cause : Str)
    (hroot : env.root = .noInfo cause) :
    generateBlob env fpath bpath tmpl
      = { events := [.stat fpath, .walk fpath, .panic], blob := env.blob,
          outcome := .panicked } := by
  simp [generateBlob, hroot]

/-- C6, as stated, fails. For the configured test-case folder, when `os.Stat`
reports that it does not exist, the message of the fatal exit is
`Static directory does not exists!`, which does not contain the path of the
folder. And when the path cannot be reached for another reason (it leads through
a regular file, so that `os.Stat` and `os.Lstat` fail with `not a directory`),
the check passes, the walk starts and the run ends in a panic, without any
message of `log.Fatal`. -/
theorem missing_directory_message_omits_path :
    ((generateBlob (quietEnv .notExist) embedTestCaseFolder testCaseBlobFileName
        testCaseTmpl.Execute).outcome
      = .fatal .stat "Static directory does not exists!".toList
    ∧ (generateBlob (quietEnv .notExist) embedTestCaseFolder testCaseBlobFileName
        testCaseTmpl.Execute).events
      = [.stat embedTestCaseFolder, .fatal "Static directory does not exists!".toList]
    ∧ Contains "Static directory does not exists!".toList embedTestCaseFolder = false)
    ∧ ((generateBlob (quietEnv (.noInfo "not a directory".toList)) embedTestCaseFolder
        testCaseBlobFileName testCaseTmpl.Execute).outcome = .panicked
    ∧ (generateBlob (quietEnv (.noInfo "not a directory".toList)) embedTestCaseFolder
        testCaseBlobFileName testCaseTmpl.Execute).events
      = [.stat embedTestCaseFolder, .walk embedTestCaseFolder, .panic]) := by
  decide

/-- C6, amended: for every source path that `os.Stat` reports as not existing
(the error satisfies `os.IsNotExist`), `generateBlob` ends in `log.Fatal` right
after the check of the path, before the walk starts: no file is read, no output
file is created and the file at the output path is left as it was; the message
is the fixed text `Static directory does not exists!`, the same for every source
path. -/
theorem generateBlob_missing_directory (env : Env) (fpath bpath : Str) (tmpl : executor)
    (hroot : env.root = .notExist) :
    generateBlob env fpath bpath tmpl
      = { events := [.stat fpath, .fatal "Static directory does not exists!".toList],
          blob := env.blob,
          outcome := .fatal .stat "Static directory does not exists!".toList }
    ∧ (generateBlob env fpath bpath tmpl).outcome
      = .fatal .stat "Static directory does not exists!".toList
    ∧ (generateBlob env fpath bpath tmpl).events
      = [.stat fpath, .fatal "Static directory does not exists!".toList]
    ∧ Event.walk fpath ∉ (generateBlob env fpath bpath tmpl).events
    ∧ readPaths (generateBlob env fpath bpath tmpl).events = []
    ∧ createsFile (generateBlob env fpath bpath tmpl).events = false
    ∧ (generateBlob env fpath bpath tmpl).blob = env.blob := by
  rw [generateBlob_missing env fpath bpath tmpl hroot]
  simp [readPaths, createsFile]

/-- The amended C6 for the configured stage folder. -/
theorem generateBlob_missing_directory_witness :
    generateBlob (quietEnv .notExist) embedStageFolder stageBlobFileName stageTmpl.Execute
      = { events := [.stat embedStageFolder, .fatal "Static directory does not exists!".toList],
          blob := (quietEnv .notExist).blob,
          outcome := .fatal .stat "Static directory does not exists!".toList }
    ∧ (generateBlob (quietEnv .notExist) embedStageFolder stageBlobFileName
        stageTmpl.Execute).outcome
      = .fatal .stat "Static directory does not exists!".toList
    ∧ (generateBlob (quietEnv .notExist) embedStageFolder stageBlobFileName
        stageTmpl.Execute).events
      = [.stat embedStageFolder, .fatal "Static directory does not exists!".toList]
    ∧ Event.walk embedStageFolder
        ∉ (generateBlob (quietEnv .notExist) embedStageFolder stageBlobFileName
            stageTmpl.Execute).events
    ∧ readPaths
        (generateBlob (quietEnv .notExist) embedStageFolder stageBlobFileName
          stageTmpl.Execute).events
      = []
    ∧ createsFile
        (generateBlob (quietEnv .notExist) embedStageFolder stageBlobFileName
          stageTmpl.Execute).events
      = false
    ∧ (generateBlob (quietEnv .notExist) embedStageFolder stageBlobFileName
        stageTmpl.Execute).blob
      = (quietEnv .notExist).blob :=
  generateBlob_missing_directory (quietEnv .notExist) embedStageFolder stageBlobFileName
    stageTmpl.Execute rfl

/-- C7: when reading some file of the tree fails, with `pre` the files in front
of the first such file in walk order, `generateBlob` reads the files of `pre` and
the failing file and no other, ends in `log.Fatal` with a message that holds the
operation, the path of the failing file and the cause of the failure, creates no
file and leaves the file at the output path as it was. -/
theorem generateBlob_read_failure (env : Env) (fpath bpath : Str) (tmpl : executor) (tree : Node)
    (pre post : List (List Str × ReadOutcome)) (rel : List Str) (op cause : Str)
    (hroot : env.root = .present tree)
    (hfiles : tree.files = pre ++ (rel, .fail op cause) :: post)
    (hpre : ∀ f ∈ pre, f.2.isOk = true) :
    (generateBlob env fpath bpath tmpl).outcome
      = .fatal .walk ("Error walking through embed directory:".toList
          ++ (op ++ " ".toList ++ walkPath fpath rel ++ ": ".toList ++ cause))
    ∧ readPaths (generateBlob env fpath bpath tmpl).events
      = pre.map (fun f => walkPath fpath f.1) ++ [walkPath fpath rel]
    ∧ createsFile (generateBlob env fpath bpath tmpl).events = false
    ∧ (generateBlob env fpath bpath tmpl).blob = env.blob := by
  obtain ⟨st, h1, _, h3, h4⟩ := runVisits_fail fpath (tree.visits [])
    { configs := [], log := [.stat fpath, .walk fpath] } pre post rel op cause hfiles
    (fun f hf => (isOk_iff f.2).1 (hpre f hf))
  have hwalk : collect fpath tree
      = (st, some { op := op, path := walkPath fpath rel, err := cause }) := by
    rw [collect, Walk_eq_runVisits]
    exact h1
  rw [generateBlob_walk_error env fpath bpath tmpl tree st _ hroot hwalk]
  refine ⟨rfl, ?_, ?_, rfl⟩
  · simp only [Run.die, readPaths_append, h3]
    simp [readPaths]
  · simp only [Run.die, createsFile_append, h4]
    simp [createsFile]

/-- C7 at a directory whose second file cannot be opened: the first file and
the failing file are read, the third is not. -/
theorem generateBlob_read_failure_witness :
    (generateBlob (quietEnv (.present brokenTree)) embedTestCaseFolder testCaseBlobFileName
        testCaseTmpl.Execute).outcome
      = .fatal .walk ("Error walking through embed directory:".toList
          ++ ("open".toList ++ " ".toList ++ walkPath embedTestCaseFolder ["bad.txt".toList]
              ++ ": ".toList ++ "permission denied".toList))
    ∧ readPaths (generateBlob (quietEnv (.present brokenTree)) embedTestCaseFolder
        testCaseBlobFileName testCaseTmpl.Execute).events
      = [(["a.json".toList], ReadOutcome.ok [0x7B, 0x7D])].map
          (fun f => walkPath embedTestCaseFolder f.1)
        ++ [walkPath embedTestCaseFolder ["bad.txt".toList]]
    ∧ createsFile (generateBlob (quietEnv (.present brokenTree)) embedTestCaseFolder
        testCaseBlobFileName testCaseTmpl.Execute).events = false
    ∧ (generateBlob (quietEnv (.present brokenTree)) embedTestCaseFolder testCaseBlobFileName
        testCaseTmpl.Execute).blob = (quietEnv (.present brokenTree)).blob :=
  generateBlob_read_failure (quietEnv (.present brokenTree)) embedTestCaseFolder testCaseBlobFileName
    testCaseTmpl.Execute brokenTree [(["a.json".toList], .ok [0x7B, 0x7D])]
    [(["z.txt".toList], .ok [0x68, 0x69])] ["bad.txt".toList] "open".toList
    "permission denied".toList rfl (by decide) (by decide)

theorem visitFn_createsFile (fpath : Str) (st : WalkState)
    (v : List Str × Option ReadOutcome) :
    createsFile (visitFn fpath st v).1.log = createsFile st.log := by
  obtain ⟨rel, k⟩ := v
  cases k with
  | none => simp [visitFn_dir, createsFile_append, createsFile]
  | some r =>
    cases r with
    | ok c => simp [visitFn_ok, createsFile_append, createsFile]
    | fail op cause => simp [visitFn_fail, createsFile_append, createsFile]

theorem runVisits_createsFile (fpath : Str) :
    ∀ (vs : List (List Str × Option ReadOutcome)) (st : WalkState),
      createsFile (runVisits fpath st vs).1.log = createsFile st.log := by
  intro vs
  induction vs with
  | nil => intro st; rfl
  | cons v vs ih =>
    intro st
    rw [runVisits]
    have hv := visitFn_createsFile fpath st v
    rcases hx : visitFn fpath st v with ⟨st1, _ | e⟩
    · rw [hx] at hv
      simp only []
      rw [ih st1]
      exact hv
    · rw [hx] at hv
      exact hv

/-- The walk creates no file. -/
theorem collect_createsFile (fpath : Str) (tree : Node) :
    createsFile (collect fpath tree).1.log = false := by
  rw [collect, Walk_eq_runVisits, runVisits_createsFile]
  rfl

/-- What the way a run ended tells about the run. -/
theorem generateBlob_outcome_cases (env : Env) (fpath bpath : Str) (tmpl : executor) :
    (∀ msg, ((generateBlob env fpath bpath tmpl).outcome = .fatal .execute msg
          ∨ (generateBlob env fpath bpath tmpl).outcome = .fatal .format msg) →
        (generateBlob env fpath bpath tmpl).blob = some []
        ∧ ∃ tree st rest, env.root = .present tree ∧ collect fpath tree = (st, none)
            ∧ (generateBlob env fpath bpath tmpl).events
                = st.log ++ .create bpath :: .execute :: rest
            ∧ Event.writeFile bpath ∉ rest
            ∧ ((∃ e, (tmpl st.configs).2 = some e)
                ∨ ∃ e, env.formatSource (tmpl st.configs).1 = .error e))
    ∧ (∀ msg, ((generateBlob env fpath bpath tmpl).outcome = .fatal .stat msg
          ∨ (generateBlob env fpath bpath tmpl).outcome = .fatal .walk msg
          ∨ (generateBlob env fpath bpath tmpl).outcome = .fatal .create msg) →
        (generateBlob env fpath bpath tmpl).blob = env.blob)
    ∧ ((generateBlob env fpath bpath tmpl).outcome = .returned →
        ∃ tree st text data, env.root = .present tree ∧ collect fpath tree = (st, none)
          ∧ tmpl st.configs = (text, none) ∧ env.formatSource text = .ok data
          ∧ (generateBlob env fpath bpath tmpl).blob = some data
          ∧ (generateBlob env fpath bpath tmpl).events
              = st.log ++ [.create bpath, .execute, .formatSource, .writeFile bpath]) := by
  cases hroot : env.root with
  | notExist =>
    rw [generateBlob_missing env fpath bpath tmpl hroot]
    simp
  | noInfo cause =>
    rw [generateBlob_noInfo env fpath bpath tmpl cause hroot]
    simp
  | present tree =>
    rcases hw : collect fpath tree with ⟨st, _ | err⟩
    · cases hc : env.createErr with
      | some e =>
        rw [generateBlob_create_error env fpath bpath tmpl tree st e hroot hw hc]
        simp [Run.die]
      | none =>
        rcases hx : tmpl st.configs with ⟨text, _ | e⟩
        · cases hf : env.formatSource text with
          | error e =>
            rw [generateBlob_format_error env fpath bpath tmpl tree st text e hroot hw hc hx hf]
            refine ⟨fun msg _ => ⟨rfl, tree, st,
              [.formatSource, .fatal ("Error formatting generated code".toList ++ e)], rfl, hw, ?_, ?_,
              Or.inr ⟨e, by rw [hx]; exact hf⟩⟩, by simp [Run.die], by simp [Run.die]⟩
            · simp [Run.die]
            · simp
          | ok data =>
            cases hwr : env.writeErr with
            | some p =>
              rw [generateBlob_write_error env fpath bpath tmpl tree st text data p.1 p.2
                hroot hw hc hx hf hwr]
              simp [Run.die]
            | none =>
              rw [generateBlob_ok env fpath bpath tmpl tree st text data hroot hw hc hx hf hwr]
              refine ⟨by simp, by simp, fun _ => ⟨tree, st, text, data, rfl, hw, hx, hf, rfl, ?_⟩⟩
              simp
        · rw [generateBlob_execute_error env fpath bpath tmpl tree st text e hroot hw hc hx]
          refine ⟨fun msg _ => ⟨rfl, tree, st,
            [.fatal ("Error executing template".toList ++ e)], rfl, hw, ?_, ?_,
            Or.inl ⟨e, by rw [hx]⟩⟩, by simp [Run.die], by simp [Run.die]⟩
          · simp [Run.die]
          · simp
    · rw [generateBlob_walk_error env fpath bpath tmpl tree st err hroot hw]
      simp [Run.die]

/-- C10: `generateBlob` creates (truncating) the output file after the walk has
succeeded and before the template is executed and its result formatted. In every
run in which the walk succeeds and the file can be created, the walk itself has
created no file, and
* if the execution of the template fails, the run is the walk, the creation, the
  execution and the fatal exit, and it leaves the output path existing with
  empty content, whatever it held before;
* if the execution succeeds and the formatting fails, the run is the walk, the
  creation, the execution, the formatting and the fatal exit, and it leaves the
  output path existing with empty content;
* if both succeed, the formatted text is written: when the write succeeds the
  run returns and the output path holds the formatted text, and when it fails the
  run ends in the fatal exit with what the failed write has left.
A run in which the walk or the creation fails leaves the output path as it was.
Conversely a run that ends in the fatal exit of the execution or of the
formatting has left the output path empty, and a run that returns has executed
the template and formatted the text successfully and has written that text. -/
theorem generateBlob_creates_before_render (env : Env) (fpath bpath : Str) (tmpl : executor) :
    (∀ tree st, env.root = .present tree → collect fpath tree = (st, none) →
        env.createErr = none →
        createsFile st.log = false
        ∧ (∀ text e, tmpl st.configs = (text, some e) →
            generateBlob env fpath bpath tmpl
              = { events := st.log ++ [.create bpath, .execute,
                    .fatal ("Error executing template".toList ++ e)],
                  blob := some [],
                  outcome := .fatal .execute ("Error executing template".toList ++ e) })
        ∧ (∀ text e, tmpl st.configs = (text, none) → env.formatSource text = .error e →
            generateBlob env fpath bpath tmpl
              = { events := st.log ++ [.create bpath, .execute, .formatSource,
                    .fatal ("Error formatting generated code".toList ++ e)],
                  blob := some [],
                  outcome := .fatal .format ("Error formatting generated code".toList ++ e) })
        ∧ (∀ text data, tmpl st.configs = (text, none) → env.formatSource text = .ok data →
            (env.writeErr = none →
              generateBlob env fpath bpath tmpl
                = { events := st.log ++ [.create bpath, .execute, .formatSource,
                      .writeFile bpath],
                    blob := some data, outcome := .returned })
            ∧ (∀ e left, env.writeErr = some (e, left) →
              generateBlob env fpath bpath tmpl
                = { events := st.log ++ [.create bpath, .execute, .formatSource,
                      .writeFile bpath, .fatal ("Error writing blob file".toList ++ e)],
                    blob := left,
                    outcome := .fatal .write ("Error writing blob file".toList ++ e) })))
    ∧ (∀ tree st err, env.root = .present tree → collect fpath tree = (st, some err) →
        (generateBlob env fpath bpath tmpl).blob = env.blob
        ∧ createsFile (generateBlob env fpath bpath tmpl).events = false)
    ∧ (∀ tree st e, env.root = .present tree → collect fpath tree = (st, none) →
        env.createErr = some e →
        (generateBlob env fpath bpath tmpl).blob = env.blob
        ∧ (generateBlob env fpath bpath tmpl).outcome
            = .fatal .create ("Error creating blob file:".toList ++ e))
    ∧ (∀ msg, ((generateBlob env fpath bpath tmpl).outcome = .fatal .execute msg
          ∨ (generateBlob env fpath bpath tmpl).outcome = .fatal .format msg) →
        (generateBlob env fpath bpath tmpl).blob = some []
        ∧ ∃ tree st rest, env.root = .present tree ∧ collect fpath tree = (st, none)
            ∧ (generateBlob env fpath bpath tmpl).events
                = st.log ++ .create bpath :: .execute :: rest
            ∧ Event.writeFile bpath ∉ rest
            ∧ ((∃ e, (tmpl st.configs).2 = some e)
                ∨ ∃ e, env.formatSource (tmpl st.configs).1 = .error e))
    ∧ (∀ msg, ((generateBlob env fpath bpath tmpl).outcome = .fatal .stat msg
          ∨ (generateBlob env fpath bpath tmpl).outcome = .fatal .walk msg
          ∨ (generateBlob env fpath bpath tmpl).outcome = .fatal .create msg) →
        (generateBlob env fpath bpath tmpl).blob = env.blob)
    ∧ ((generateBlob env fpath bpath tmpl).outcome = .returned →
        ∃ tree st text data, env.root = .present tree ∧ collect fpath tree = (st, none)
          ∧ tmpl st.configs = (text, none) ∧ env.formatSource text = .ok data
          ∧ (generateBlob env fpath bpath tmpl).blob = some data
          ∧ (generateBlob env fpath bpath tmpl).events
              = st.log ++ [.create bpath, .execute, .formatSource, .writeFile bpath]) := by
  refine ⟨?_, ?_, ?_, generateBlob_outcome_cases env fpath bpath tmpl⟩
  · intro tree st hroot hw hc
    have hcf : createsFile st.log = false := by
      have := collect_createsFile fpath tree
      rw [hw] at this
      exact this
    refine ⟨hcf, ?_, ?_, ?_⟩
    · intro text e hx
      rw [generateBlob_execute_error env fpath bpath tmpl tree st text e hroot hw hc hx]
      simp [Run.die]
    · intro text e hx hf
      rw [generateBlob_format_error env fpath bpath tmpl tree st text e hroot hw hc hx hf]
      simp [Run.die]
    · intro text data hx hf
      refine ⟨fun hwr => ?_, fun e left hwr => ?_⟩
      · rw [generateBlob_ok env fpath bpath tmpl tree st text data hroot hw hc hx hf hwr]
        simp
      · rw [generateBlob_write_error env fpath bpath tmpl tree st text data e left
          hroot hw hc hx hf hwr]
        simp [Run.die]
  · intro tree st err hroot hw
    have hcf : createsFile st.log = false := by
      have := collect_createsFile fpath tree
      rw [hw] at this
      exact this
    rw [generateBlob_walk_error env fpath bpath tmpl tree st err hroot hw]
    refine ⟨rfl, ?_⟩
    simp only [Run.die, createsFile_append, hcf, Bool.false_or]
    rfl
  · intro tree st e hroot hw hc
    rw [generateBlob_create_error env fpath bpath tmpl tree st e hroot hw hc]
    simp [Run.die]

/-- C10 at a run in which `format.Source` rejects the text: the output file,
which held the text `old`, is left empty, after the walk, the creation and the
execution of the template. -/
theorem generateBlob_creates_before_render_witness :
    (rejectingEnv (.present scenarioTree) "old".toList).blob = some "old".toList
    ∧ generateBlob (rejectingEnv (.present scenarioTree) "old".toList) embedTestCaseFolder
        testCaseBlobFileName testCaseTmpl.Execute
      = { events := (collect embedTestCaseFolder scenarioTree).1.log
            ++ [.create testCaseBlobFileName, .execute, .formatSource,
                .fatal ("Error formatting generated code".toList ++ "syntax error".toList)],
          blob := some [],
          outcome := .fatal .format
            ("Error formatting generated code".toList ++ "syntax error".toList) } :=
  ⟨rfl,
    ((generateBlob_creates_before_render (rejectingEnv (.present scenarioTree) "old".toList)
        embedTestCaseFolder testCaseBlobFileName testCaseTmpl.Execute).1
      scenarioTree (collect embedTestCaseFolder scenarioTree).1 rfl (by decide) rfl).2.2.1
      (testCaseTmpl.Execute (collect embedTestCaseFolder scenarioTree).1.configs).1
      "syntax error".toList rfl rfl⟩

/-! ## The order of the keys -/

theorem toNat_inj {a b : Char} (h : a.toNat = b.toNat) : a = b := by
  rw [← Char.ofNat_toNat a, ← Char.ofNat_toNat b, h]

theorem strLess_asymm (a : Str) : ∀ b : Str, strLess a b = true → strLess b a = false := by
  induction a with
  | nil =>
    intro b _
    cases b <;> simp [strLess]
  | cons x xs ih =>
    intro b h
    cases b with
    | nil => simp [strLess] at h
    | cons y ys =>
      simp only [strLess] at h ⊢
      by_cases h1 : x.toNat < y.toNat
      · have h2 : ¬ y.toNat < x.toNat := by omega
        simp [h1, h2]
      · by_cases h2 : y.toNat < x.toNat
        · simp [h1, h2] at h
        · simp only [h1, h2, if_false] at h ⊢
          exact ih ys h

theorem strLess_connex (a : Str) :
    ∀ b : Str, strLess a b = false → strLess b a = false → a = b := by
  induction a with
  | nil =>
    intro b h1 _
    cases b with
    | nil => rfl
    | cons y ys => simp [strLess] at h1
  | cons x xs ih =>
    intro b h1 h2
    cases b with
    | nil => simp [strLess] at h2
    | cons y ys =>
      simp only [strLess] at h1 h2
      by_cases hxy : x.toNat < y.toNat
      · simp [hxy] at h1
      · by_cases hyx : y.toNat < x.toNat
        · simp [hyx] at h2
        · simp only [hxy, hyx, if_false] at h1 h2
          have hEQ : x = y := toNat_inj (by omega)
          rw [hEQ, ih ys h1 h2]

theorem strLess_cotrans (c : Str) :
    ∀ a b : Str, strLess c a = true → strLess c b = true ∨ strLess b a = true := by
  induction c with
  | nil =>
    intro a b h
    cases a with
    | nil => simp [strLess] at h
    | cons x xs =>
      cases b with
      | nil => right; simp [strLess]
      | cons y ys => left; simp [strLess]
  | cons z zs ih =>
    intro a b h
    cases a with
    | nil => simp [strLess] at h
    | cons x xs =>
      cases b with
      | nil => right; simp [strLess]
      | cons y ys =>
        simp only [strLess] at h ⊢
        by_cases hzx : z.toNat < x.toNat
        · by_cases hzy : z.toNat < y.toNat
          · left; simp [hzy]
          · right
            have hyx : y.toNat < x.toNat := by omega
            simp [hyx]
        · by_cases hxz : x.toNat < z.toNat
          · simp [hzx, hxz] at h
          · simp only [hzx, hxz, if_false] at h
            have hzxe : z.toNat = x.toNat := by omega
            by_cases hzy : z.toNat < y.toNat
            · left; simp [hzy]
            · by_cases hyz : y.toNat < z.toNat
              · right
                have hyx : y.toNat < x.toNat := by omega
                simp [hyx]
              · have hxy : ¬ x.toNat < y.toNat := by omega
                have hyx : ¬ y.toNat < x.toNat := by omega
                simp only [hzy, hyz, hxy, hyx, if_false]
                exact ih xs ys h

theorem keyLE_total : IsTotal Str keyLE :=
  ⟨fun a b => by
    unfold keyLE
    cases h : strLess b a with
    | false => exact Or.inl rfl
    | true => exact Or.inr (strLess_asymm b a h)⟩

theorem keyLE_trans : IsTrans Str keyLE :=
  ⟨fun a b c hab hbc => by
    unfold keyLE at *
    cases h : strLess c a with
    | false => rfl
    | true =>
      rcases strLess_cotrans c a b h with h1 | h1
      · rw [h1] at hbc
        exact absurd hbc (by decide)
      · rw [h1] at hab
        exact absurd hab (by decide)⟩

theorem keyLE_antisymm : IsAntisymm Str keyLE :=
  ⟨fun a b hab hba => by
    unfold keyLE at *
    exact strLess_connex a b hba hab⟩

theorem sortKeys_sorted (ks : List Str) : (sortKeys ks).Sorted keyLE :=
  @List.sorted_insertionSort _ keyLE _ keyLE_total keyLE_trans ks

theorem sortKeys_perm (ks : List Str) : (sortKeys ks).Perm ks :=
  List.perm_insertionSort keyLE ks

theorem sortKeys_eq_of_perm {a b : List Str} (h : a.Perm b) : sortKeys a = sortKeys b :=
  @List.eq_of_perm_of_sorted _ keyLE keyLE_antisymm _ _
    (((sortKeys_perm a).trans h).trans (sortKeys_perm b).symm)
    (sortKeys_sorted a) (sortKeys_sorted b)

/-! ## The text the templates produce -/

theorem tmplHead_eq : tmplHead = blobHeader := by decide

theorem tmplClose_eq : tmplClose = " \x7d)".toList := by decide

theorem execNode_range (m : FileSet) (lead : Str) :
    execNode m (.range [.text lead, .printName, .text tmplMid, .convFile, .text tmplClose])
      = ((sortedEntries m).map
          (fun e => lead ++ e.1 ++ tmplMid ++ fmtByteSlice e.2 ++ tmplClose)).flatten := by
  simp [execNode, sortedEntries, execAction, List.map_map, Function.comp_def]

theorem execute_shape (m : FileSet) (store lead : Str)
    (hlead : lead = "\n    \t".toList ++ store ++ ".Add(".toList ++ [dquote]) :
    Template.Execute
        [ .text tmplHead,
          .range [.text lead, .printName, .text tmplMid, .convFile, .text tmplClose],
          .text tmplTail ] m
      = (blobText store (sortedEntries m), none) := by
  have hline : (fun e : Str × List Byte =>
      lead ++ e.1 ++ tmplMid ++ fmtByteSlice e.2 ++ tmplClose) = regLine store := by
    funext e
    rw [hlead, tmplClose_eq]
    simp [regLine, tmplMid, List.append_assoc]
  simp only [Template.Execute, List.map_cons, List.map_nil, execNode_range, hline]
  simp [execNode, blobText, tmplHead_eq, tmplTail, List.append_assoc]

theorem execute_testCase (m : FileSet) :
    testCaseTmpl.Execute m = (blobText "DefaultTestCaseStore".toList (sortedEntries m), none) :=
  execute_shape m _ _ (by decide)

theorem execute_expectation (m : FileSet) :
    expectationTmpl.Execute m
      = (blobText "DefaultExpectationStore".toList (sortedEntries m), none) :=
  execute_shape m _ _ (by decide)

theorem execute_stage (m : FileSet) :
    stageTmpl.Execute m = (blobText "DefaultStageStore".toList (sortedEntries m), none) :=
  execute_shape m _ _ (by decide)

theorem index_of_mem (m : FileSet) (h : m.keys.Nodup) (e : Str × List Byte) (he : e ∈ m) :
    m.index e.1 = e.2 := by
  rw [FileSet.index, lookup_of_mem_nodup m h e.1 e.2 he]
  rfl

theorem sortedEntries_perm (m : FileSet) (h : m.keys.Nodup) : (sortedEntries m).Perm m := by
  have h1 : (sortedEntries m).Perm (m.keys.map (fun k => (k, m.index k))) :=
    (sortKeys_perm m.keys).map _
  have h2 : m.keys.map (fun k => (k, m.index k)) = m := by
    rw [FileSet.keys, List.map_map]
    conv_rhs => rw [← List.map_id m]
    apply List.map_congr_left
    intro e he
    simp only [Function.comp, id]
    rw [index_of_mem m h e he]
  rw [h2] at h1
  exact h1

theorem sortedEntries_keys (m : FileSet) : (sortedEntries m).keys = sortKeys m.keys := by
  simp [sortedEntries, FileSet.keys, List.map_map, Function.comp_def]

theorem sortedEntries_length (m : FileSet) : (sortedEntries m).length = m.length := by
  simp [sortedEntries, sortKeys, List.length_insertionSort, FileSet.keys]

theorem sameMap_perm {m1 m2 : FileSet} (h : sameMap m1 m2) : m1.Perm m2 :=
  (List.perm_ext_iff_of_nodup (List.Nodup.of_map _ h.1) (List.Nodup.of_map _ h.2.1)).2 h.2.2

theorem sortedEntries_congr {m1 m2 : FileSet} (h : sameMap m1 m2) :
    sortedEntries m1 = sortedEntries m2 := by
  have hp := sameMap_perm h
  have hk : sortKeys m1.keys = sortKeys m2.keys := sortKeys_eq_of_perm (hp.map _)
  unfold sortedEntries
  rw [hk]
  apply List.map_congr_left
  intro k hk2
  have hmem : k ∈ m2.keys := (sortKeys_perm m2.keys).subset hk2
  obtain ⟨e, he, hek⟩ := List.mem_map.1 hmem
  have h1 := index_of_mem m2 h.2.1 e he
  have h2 := index_of_mem m1 h.1 e ((h.2.2 e).2 he)
  rw [← hek, h1, h2]

/-! ## C5 and C8: the rendered text -/

/-- C5: for every map `m` (a list of entries with pairwise different keys) there
is a listing `entries` of the entries of `m` such that each of the three
templates renders the fixed header, one registration line per element of
`entries`, of the form `<Store>.Add("<key>", []byte{ <fmtByteSlice(content)> })`,
and the closing brace, with the store `DefaultTestCaseStore`,
`DefaultExpectationStore` and `DefaultStageStore` respectively; the number of
lines is the number of entries of `m`, the three texts differ in the store name
only, and the empty map gives the header directly followed by the closing
brace. -/
theorem templates_render_one_call_per_entry (m : FileSet) (h : m.keys.Nodup) :
    ∃ entries : FileSet, entries.Perm m ∧ entries.length = m.length
      ∧ testCaseTmpl.Execute m = (blobText "DefaultTestCaseStore".toList entries, none)
      ∧ expectationTmpl.Execute m = (blobText "DefaultExpectationStore".toList entries, none)
      ∧ stageTmpl.Execute m = (blobText "DefaultStageStore".toList entries, none)
      ∧ (∀ store : Str, blobText store entries
          = "package storage\n// Code generated by go generate; DO NOT EDIT.\nfunc init() \x7b".toList
            ++ (entries.map (fun e => "\n    \t".toList ++ store ++ ".Add(".toList ++ [dquote]
                  ++ e.1 ++ [dquote] ++ ", []byte\x7b ".toList ++ fmtByteSlice e.2
                  ++ " \x7d)".toList)).flatten
            ++ "\n\x7d".toList)
      ∧ (testCaseTmpl.Execute []).1
          = "package storage\n// Code generated by go generate; DO NOT EDIT.\nfunc init() \x7b\n\x7d".toList := by
  refine ⟨sortedEntries m, sortedEntries_perm m h, sortedEntries_length m, execute_testCase m,
    execute_expectation m, execute_stage m, fun store => rfl, by decide⟩

set_option maxRecDepth 100000 in
/-- C5 at the map of the scenario of the specification. -/
theorem templates_render_one_call_per_entry_witness :
    (∃ entries : FileSet, entries.Perm scenarioFiles ∧ entries.length = scenarioFiles.length
      ∧ testCaseTmpl.Execute scenarioFiles
          = (blobText "DefaultTestCaseStore".toList entries, none)
      ∧ expectationTmpl.Execute scenarioFiles
          = (blobText "DefaultExpectationStore".toList entries, none)
      ∧ stageTmpl.Execute scenarioFiles = (blobText "DefaultStageStore".toList entries, none)
      ∧ (∀ store : Str, blobText store entries
          = "package storage\n// Code generated by go generate; DO NOT EDIT.\nfunc init() \x7b".toList
            ++ (entries.map (fun e => "\n    \t".toList ++ store ++ ".Add(".toList ++ [dquote]
                  ++ e.1 ++ [dquote] ++ ", []byte\x7b ".toList ++ fmtByteSlice e.2
                  ++ " \x7d)".toList)).flatten
            ++ "\n\x7d".toList)
      ∧ (testCaseTmpl.Execute []).1
          = "package storage\n// Code generated by go generate; DO NOT EDIT.\nfunc init() \x7b\n\x7d".toList)
    ∧ (stageTmpl.Execute scenarioFiles).1
        = ("package storage\n// Code generated by go generate; DO NOT EDIT.\nfunc init() \x7b".toList
          ++ "\n    \tDefaultStageStore.Add(".toList ++ [dquote] ++ "/a.json".toList ++ [dquote]
          ++ ", []byte\x7b 123,125, \x7d)".toList
          ++ "\n    \tDefaultStageStore.Add(".toList ++ [dquote] ++ "/sub/b.txt".toList ++ [dquote]
          ++ ", []byte\x7b 104,105, \x7d)".toList
          ++ "\n\x7d".toList) :=
  ⟨templates_render_one_call_per_entry scenarioFiles (by decide), by decide⟩

/-- Two listings of the same map are rendered to the same text. -/
theorem execute_congr {m1 m2 : FileSet} (h : sameMap m1 m2) :
    testCaseTmpl.Execute m1 = testCaseTmpl.Execute m2
    ∧ expectationTmpl.Execute m1 = expectationTmpl.Execute m2
    ∧ stageTmpl.Execute m1 = stageTmpl.Execute m2 := by
  simp only [execute_testCase, execute_expectation, execute_stage, sortedEntries_congr h,
    and_self]

/-- C8, as stated, fails: there is no map with at least two entries of which two
listings are rendered to different texts by one of the three templates. The
order of the listing stands for the iteration order of the Go map; the `range`
action of `text/template` sorts the keys before iterating. -/
theorem no_map_has_two_renderings :
    ¬ ∃ m1 m2 : FileSet, sameMap m1 m2 ∧ 2 ≤ m1.length
        ∧ (testCaseTmpl.Execute m1 ≠ testCaseTmpl.Execute m2
            ∨ expectationTmpl.Execute m1 ≠ expectationTmpl.Execute m2
            ∨ stageTmpl.Execute m1 ≠ stageTmpl.Execute m2) := by
  rintro ⟨m1, m2, h, _, hne⟩
  obtain ⟨h1, h2, h3⟩ := execute_congr h
  rcases hne with hne | hne | hne
  · exact hne h1
  · exact hne h2
  · exact hne h3

/-- C8, amended: the generator has no sort step of its own, but the text a
template renders is a function of the map alone: two listings of the same map
are rendered to the same text by each of the three templates, and the
registration calls appear in ascending order of the keys. -/
theorem rendering_in_sorted_key_order (m1 m2 : FileSet) (h : sameMap m1 m2) :
    testCaseTmpl.Execute m1 = testCaseTmpl.Execute m2
    ∧ expectationTmpl.Execute m1 = expectationTmpl.Execute m2
    ∧ stageTmpl.Execute m1 = stageTmpl.Execute m2
    ∧ ∃ entries : FileSet, entries.Perm m1 ∧ entries.keys.Sorted keyLE
        ∧ testCaseTmpl.Execute m1 = (blobText "DefaultTestCaseStore".toList entries, none)
        ∧ expectationTmpl.Execute m1
            = (blobText "DefaultExpectationStore".toList entries, none)
        ∧ stageTmpl.Execute m1 = (blobText "DefaultStageStore".toList entries, none) := by
  obtain ⟨h1, h2, h3⟩ := execute_congr h
  refine ⟨h1, h2, h3, sortedEntries m1, sortedEntries_perm m1 h.1, ?_, execute_testCase m1,
    execute_expectation m1, execute_stage m1⟩
  rw [sortedEntries_keys]
  exact sortKeys_sorted _

/-- The amended C8 at the two listings of the map of the scenario. -/
theorem rendering_in_sorted_key_order_witness :
    testCaseTmpl.Execute scenarioFilesSwapped = testCaseTmpl.Execute scenarioFiles
    ∧ expectationTmpl.Execute scenarioFilesSwapped = expectationTmpl.Execute scenarioFiles
    ∧ stageTmpl.Execute scenarioFilesSwapped = stageTmpl.Execute scenarioFiles
    ∧ ∃ entries : FileSet, entries.Perm scenarioFilesSwapped ∧ entries.keys.Sorted keyLE
        ∧ testCaseTmpl.Execute scenarioFilesSwapped
            = (blobText "DefaultTestCaseStore".toList entries, none)
        ∧ expectationTmpl.Execute scenarioFilesSwapped
            = (blobText "DefaultExpectationStore".toList entries, none)
        ∧ stageTmpl.Execute scenarioFilesSwapped
            = (blobText "DefaultStageStore".toList entries, none) :=
  rendering_in_sorted_key_order scenarioFilesSwapped scenarioFiles
    ⟨by decide, by decide, fun e => by
      simp only [scenarioFilesSwapped, scenarioFiles, List.mem_cons, List.mem_singleton,
        List.not_mem_nil, or_false]
      exact or_comm⟩

/-! ## C9: reading the generated text back -/

theorem scanBody_plain (k : Str) :
    ∀ (acc rest : Str), plainKey k →
      scanBody (k ++ dquote :: rest) .plain acc = some (acc ++ k, rest) := by
  induction k with
  | nil =>
    intro acc rest _
    rw [List.nil_append, scanBody]
    simp
  | cons c cs ih =>
    intro acc rest h
    obtain ⟨h1, h2, h3, h4, h5⟩ := h c (by simp)
    have happ : (c :: cs) ++ dquote :: rest = c :: (cs ++ dquote :: rest) := rfl
    rw [happ, scanBody]
    simp only [h1, h2, h3, h4, h5, if_false]
    rw [ih (acc ++ [c]) rest (fun d hd => h d (by simp [hd]))]
    simp

theorem scanString_plain (k rest : Str) (h : plainKey k) :
    scanString ([dquote] ++ k ++ [dquote] ++ rest) = some (k, rest) := by
  have happ : [dquote] ++ k ++ [dquote] ++ rest = dquote :: (k ++ dquote :: rest) := by simp
  rw [happ, scanString]
  simp only [if_true]
  rw [scanBody_plain k [] rest h]
  simp

theorem stripLead_append (pre rest : Str) : stripLead pre (pre ++ rest) = some rest := by
  simp [stripLead]

theorem takeWhile_stop (p : Char → Bool) (l : Str) (x : Char) (r : Str)
    (hl : l.all p = true) (hx : p x = false) :
    (l ++ x :: r).takeWhile p = l ∧ (l ++ x :: r).dropWhile p = x :: r := by
  induction l with
  | nil => simp [List.takeWhile, List.dropWhile, hx]
  | cons c cs ih =>
    simp only [List.all_cons, Bool.and_eq_true] at hl
    obtain ⟨h1, h2⟩ := ih hl.2
    simp [List.takeWhile, List.dropWhile, hl.1, h1, h2]

theorem fmtByteSlice_elemChars (c : List Byte) : (fmtByteSlice c).all isElemChar = true := by
  induction c with
  | nil => rfl
  | cons v vs ih =>
    rw [fmtByteSlice_cons, List.all_append, List.all_cons, ih]
    have hd := (decimalLit_fmtInteger v).2
    have hall : (fmtInteger (v.val : Int)).all isElemChar = true := by
      rw [List.all_eq_true] at hd ⊢
      intro x hx
      simp [isElemChar, hd x hx]
    rw [hall]
    decide

theorem regLine_append (store : Str) (e : Str × List Byte) (rest : Str) :
    regLine store e ++ rest
      = ("\n    \t".toList ++ store ++ ".Add(".toList)
        ++ (([dquote] ++ e.1 ++ [dquote])
          ++ (", []byte\x7b ".toList ++ (fmtByteSlice e.2 ++ ' ' :: ("\x7d)".toList ++ rest)))) := by
  simp [regLine, List.append_assoc]

theorem readCall_regLine (store : Str) (e : Str × List Byte) (rest : Str) (h : plainKey e.1) :
    readCall store (regLine store e ++ rest) = some (e, rest) := by
  obtain ⟨h1, h2⟩ := takeWhile_stop isElemChar (fmtByteSlice e.2) ' ' ("\x7d)".toList ++ rest)
    (fmtByteSlice_elemChars e.2) (by decide)
  have h3 : stripLead " \x7d)".toList (' ' :: ("\x7d)".toList ++ rest)) = some rest :=
    stripLead_append " \x7d)".toList rest
  rw [regLine_append, readCall, stripLead_append]
  simp only []
  rw [scanString_plain e.1 _ h]
  simp only []
  rw [stripLead_append]
  simp only []
  rw [h1, h2, parseByteLiteral, parseElements_fmtByteSlice]
  simp only []
  rw [h3]

theorem regLine_ne_tail (store : Str) (e : Str × List Byte) (rest : Str) :
    regLine store e ++ rest ≠ "\n\x7d".toList := by
  rw [regLine_append]
  intro h
  have h2 := congrArg (fun l => l.drop 1) h
  have h3 := congrArg List.head? h2
  simp at h3

theorem readCalls_lines (store : Str) (entries : FileSet) :
    ∀ fuel : Nat, entries.length < fuel → (∀ e ∈ entries, plainKey e.1) →
      readCalls store fuel ((entries.map (regLine store)).flatten ++ "\n\x7d".toList)
        = some entries := by
  induction entries with
  | nil =>
    intro fuel hf _
    cases fuel with
    | zero => exact absurd hf (by simp)
    | succ n => simp [readCalls]
  | cons e es ih =>
    intro fuel hf hp
    cases fuel with
    | zero => exact absurd hf (by simp)
    | succ n =>
      have htext : ((e :: es).map (regLine store)).flatten ++ "\n\x7d".toList
          = regLine store e ++ ((es.map (regLine store)).flatten ++ "\n\x7d".toList) := by
        simp [List.append_assoc]
      rw [htext, readCalls]
      simp only [regLine_ne_tail, if_false]
      rw [readCall_regLine store e _ (hp e (by simp))]
      simp only []
      rw [ih n (by simpa using hf) (fun x hx => hp x (by simp [hx]))]
      rfl

theorem lines_length (store : Str) (entries : FileSet) :
    entries.length ≤ ((entries.map (regLine store)).flatten).length := by
  induction entries with
  | nil => simp
  | cons e es ih =>
    simp only [List.map_cons, List.flatten_cons, List.length_append, List.length_cons]
    have : 1 ≤ (regLine store e).length := by
      simp [regLine]
    omega

theorem readBack_blobText (store : Str) (entries : FileSet) (hp : ∀ e ∈ entries, plainKey e.1) :
    readBack store (blobText store entries) = some entries := by
  have htext : blobText store entries
      = blobHeader ++ ((entries.map (regLine store)).flatten ++ "\n\x7d".toList) := by
    simp [blobText, List.append_assoc]
  rw [htext, readBack, stripLead_append]
  simp only []
  apply readCalls_lines store entries _ _ hp
  have := lines_length store entries
  simp only [List.length_append]
  omega

set_option maxRecDepth 100000 in
/-- C9, as stated, fails for keys with a double quote, a backslash or a byte
order mark. For the key `/a"b` the text between the parentheses of the call
starts with the literal `"/a"`, whose value is not the key, and the generated
text cannot be read back. For the key `/x\ty` the literal is well formed but
its value is `/x`, a tab and `y`, so that reading back gives another map. For a
key with a byte order mark the text between the quotes is not a literal. -/
theorem unescaped_keys_do_not_read_back :
    (testCaseTmpl.Execute quoteFiles).1
      = blobHeader ++ ("\n    \tDefaultTestCaseStore.Add(".toList
          ++ ([dquote] ++ ['/', 'a', dquote, 'b'] ++ [dquote] ++ ", []byte\x7b 1, \x7d)".toList))
        ++ "\n\x7d".toList
    ∧ scanString ([dquote] ++ ['/', 'a', dquote, 'b'] ++ [dquote] ++ ", []byte\x7b 1, \x7d)".toList)
      = some (['/', 'a'], ['b', dquote] ++ ", []byte\x7b 1, \x7d)".toList)
    ∧ readBack "DefaultTestCaseStore".toList (testCaseTmpl.Execute quoteFiles).1 = none
    ∧ readBack "DefaultTestCaseStore".toList (testCaseTmpl.Execute backslashFiles).1
      = some [(['/', 'x', '\t', 'y'], [1])]
    ∧ some [(['/', 'x', '\t', 'y'], [1])] ≠ some backslashFiles
    ∧ scanString ([dquote] ++ ['/', bom, 'a'] ++ [dquote] ++ ", []byte\x7b 1, \x7d)".toList) = none
    ∧ readBack "DefaultTestCaseStore".toList (testCaseTmpl.Execute bomFiles).1 = none := by
  decide

/-- C9, amended: for every map whose keys are valid UTF-8 text and hold no
double quote, no backslash, no line break, no NUL and no byte order mark there is
a listing `entries` of its entries such that, in the text rendered by each of the
three templates, the first argument of every registration call is a well-formed
interpreted string literal whose value is the key of the entry, and reading back
the rendered text gives `entries`. For every map, with keys of any kind, the key
stands in the rendered text as it is, between two double quotes, without
escaping. -/
theorem rendered_keys_read_back (m : FileSet) (hnd : m.keys.Nodup)
    (hplain : ∀ k ∈ m.keys, plainKey k) :
    (∃ entries : FileSet, entries.Perm m
      ∧ (∀ e ∈ entries, ∀ rest : Str,
          scanString ([dquote] ++ e.1 ++ [dquote] ++ rest) = some (e.1, rest))
      ∧ readBack "DefaultTestCaseStore".toList (testCaseTmpl.Execute m).1 = some entries
      ∧ readBack "DefaultExpectationStore".toList (expectationTmpl.Execute m).1 = some entries
      ∧ readBack "DefaultStageStore".toList (stageTmpl.Execute m).1 = some entries)
    ∧ (∀ m1 : FileSet,
        (testCaseTmpl.Execute m1).1 = blobText "DefaultTestCaseStore".toList (sortedEntries m1)
        ∧ (expectationTmpl.Execute m1).1
            = blobText "DefaultExpectationStore".toList (sortedEntries m1)
        ∧ (stageTmpl.Execute m1).1 = blobText "DefaultStageStore".toList (sortedEntries m1))
    ∧ (∀ (store : Str) (e : Str × List Byte),
        regLine store e = "\n    \t".toList ++ store ++ ".Add(".toList
          ++ ([dquote] ++ e.1 ++ [dquote])
          ++ ", []byte\x7b ".toList ++ fmtByteSlice e.2 ++ " \x7d)".toList) := by
  have hperm := sortedEntries_perm m hnd
  have hp : ∀ e ∈ sortedEntries m, plainKey e.1 := by
    intro e he
    exact hplain e.1 (List.mem_map.2 ⟨e, hperm.subset he, rfl⟩)
  refine ⟨⟨sortedEntries m, hperm, fun e he rest => scanString_plain e.1 rest (hp e he), ?_, ?_, ?_⟩,
    fun m1 => ⟨?_, ?_, ?_⟩, fun store e => ?_⟩
  · rw [execute_testCase]
    exact readBack_blobText _ _ hp
  · rw [execute_expectation]
    exact readBack_blobText _ _ hp
  · rw [execute_stage]
    exact readBack_blobText _ _ hp
  · rw [execute_testCase]
  · rw [execute_expectation]
  · rw [execute_stage]
  · simp [regLine, List.append_assoc]

/-- The amended C9 at the map of the scenario of the specification. -/
theorem rendered_keys_read_back_witness :
    (∃ entries : FileSet, entries.Perm scenarioFiles
      ∧ (∀ e ∈ entries, ∀ rest : Str,
          scanString ([dquote] ++ e.1 ++ [dquote] ++ rest) = some (e.1, rest))
      ∧ readBack "DefaultTestCaseStore".toList (testCaseTmpl.Execute scenarioFiles).1
          = some entries
      ∧ readBack "DefaultExpectationStore".toList (expectationTmpl.Execute scenarioFiles).1
          = some entries
      ∧ readBack "DefaultStageStore".toList (stageTmpl.Execute scenarioFiles).1 = some entries)
    ∧ (∀ m1 : FileSet,
        (testCaseTmpl.Execute m1).1 = blobText "DefaultTestCaseStore".toList (sortedEntries m1)
        ∧ (expectationTmpl.Execute m1).1
            = blobText "DefaultExpectationStore".toList (sortedEntries m1)
        ∧ (stageTmpl.Execute m1).1 = blobText "DefaultStageStore".toList (sortedEntries m1))
    ∧ (∀ (store : Str) (e : Str × List Byte),
        regLine store e = "\n    \t".toList ++ store ++ ".Add(".toList
          ++ ([dquote] ++ e.1 ++ [dquote])
          ++ ", []byte\x7b ".toList ++ fmtByteSlice e.2 ++ " \x7d)".toList) :=
  rendered_keys_read_back scenarioFiles (by decide) (by decide)

end Generator
